import Mathlib

/-
Shallow embedding of the hyli markup front end.

Source files embedded:
  * src/lexer.rs        — fence-aware, mode-switching tokenizer
  * src/parser.rs       — error-tolerant recursive-descent CST parser with an
                          explicit builder stack
  * src/tree.rs         — semantic tree converter (CST → Text/Element tree)
  * src/processor.rs    — transform engine
  * src/syntax_error.rs — pos_to_line of the error renderer

Modelling conventions:
  * Positions are character offsets (the Rust code uses byte offsets via
    `input.len() - chars.as_str().len()`; the two agree on ASCII input, and
    every structural fact proved here is independent of the unit).
  * The Rust lexer memoizes one token in `buffer`; since `read_next` is a
    deterministic function of the remaining input and mode, `peek`/`pop` are
    modelled buffer-free as the pure function `readNext`.
  * Rust `panic!`/`expect`/`assert` branches are modelled as `Option.none`
    (converter) or as the `panicked` flag of the builder (parser).
  * The two internally recursive loops of the Rust code that are not
    structurally recursive (the lexer's mode-switch retry and the parser's
    mutual recursion) take an explicit fuel argument; running out of fuel sets
    the `fuelOut` flag (or returns the sentinel Eof token).  The development
    proves that the canonical fuel used by `parse` never runs out, which is
    exactly the termination argument of the spec.
-/

/-! ## Lexer (src/lexer.rs) -/

inductive TokenKind where
  | lAngle
  | lAngleSlash
  | rAngle
  | name
  | equals
  | attrVal
  | unterminatedAttrVal
  | orphanHashes
  | text
  | eof
deriving DecidableEq, Repr

structure Span where
  start : Nat
  stop : Nat
deriving DecidableEq, Repr

structure Token where
  kind : TokenKind
  text : List Char
  span : Span
deriving DecidableEq, Repr

inductive LexerMode where
  | inside (hash_count : Nat)
  | outside (hash_count : Nat)
deriving DecidableEq, Repr

/-- Lexer state: the full input, the not-yet-consumed suffix, and the mode.
The current position is derived exactly as in Rust:
`input.len() - chars.as_str().len()`. -/
structure LexS where
  input : List Char
  rest : List Char
  mode : LexerMode
deriving Repr

def currentPos (s : LexS) : Nat := s.input.length - s.rest.length

def Token.from_input (kind : TokenKind) (input : List Char) (start stop : Nat) :
    Token :=
  ⟨kind, (input.drop start).take (stop - start), ⟨start, stop⟩⟩

def Token.eofAt (pos : Nat) : Token := ⟨.eof, [], ⟨pos, pos⟩⟩

def is_whitespace (c : Char) : Bool :=
  c = ' ' || c = '\t' || c = '\n' || c = '\r'

def is_name_start (c : Char) : Bool :=
  ('a' ≤ c && c ≤ 'z') || ('A' ≤ c && c ≤ 'Z')

def is_name_continue (c : Char) : Bool :=
  is_name_start c || ('0' ≤ c && c ≤ '9') || c = '.' || c = '_' || c = '-'

/-- `Lexer::skip_while`: consume while the predicate holds, returning the
number of consumed characters and the remaining input. -/
def skip_while (p : Char → Bool) : List Char → Nat × List Char
  | [] => (0, [])
  | c :: cs =>
    if p c then
      let r := skip_while p cs
      (r.1 + 1, r.2)
    else (0, c :: cs)

/-- The loop of `Lexer::read_attr_val`, after the opening quote has been
consumed.  A newline or carriage return stops the scan without being consumed;
a backslash escapes the following character; an unescaped quote closes the
value. -/
def read_attr_val (escape_next : Bool) : List Char → TokenKind × List Char
  | [] => (.unterminatedAttrVal, [])
  | c :: cs =>
    if c = '\n' || c = '\r' then (.unterminatedAttrVal, c :: cs)
    else if c = '\\' && !escape_next then read_attr_val true cs
    else if c = '"' && !escape_next then (.attrVal, cs)
    else read_attr_val false cs

/-- The loop of `Lexer::read_outside`: consume text characters, returning the
remaining input at the stop position.  With fence depth 0 any `<` stops the
scan; with fence depth `n > 0` only a `<` followed by `/` and then `n` hash
characters (checked by lookahead on `chars.clone().skip(2).take(n)`) stops
it. -/
def read_outside_loop (hash_count : Nat) : List Char → List Char
  | [] => []
  | c :: cs =>
    if c = '<' then
      if hash_count = 0 then c :: cs
      else if cs.head? = some '/' && ((cs.drop 1).take hash_count).all (· = '#')
      then c :: cs
      else read_outside_loop hash_count cs
    else read_outside_loop hash_count cs

/-- One dispatch step of `Lexer::read_inside` after whitespace skipping, on the
consumed character `c` with remaining input `cs`.  Returns
`some (kind, remaining, new mode)`, or `none` for the defensive fallback arm
(which drops back to `Outside(0)` and retries). -/
def read_inside_step (hash_count : Nat) (c : Char) (cs : List Char) :
    Option (TokenKind × List Char × LexerMode) :=
  if c = '<' then
    -- Lexer::read_langle: `if let Some('/') = peek` consumes the slash and
    -- then `hash_count` further characters via `nth(hash_count - 1)`
    if cs.head? = some '/' then
      some (.lAngleSlash, (cs.drop 1).drop hash_count, .inside 0)
    else some (.lAngle, cs, .inside hash_count)
  else if c = '>' then
    -- Lexer::read_rangle(0)
    some (.rAngle, cs, .outside 0)
  else if c = '#' then
    -- Lexer::read_hashes
    if (skip_while (fun d => d = '#') cs).2.head? = some '>' then
      some (.rAngle, (skip_while (fun d => d = '#') cs).2.drop 1,
        .outside (1 + (skip_while (fun d => d = '#') cs).1))
    else some (.orphanHashes, (skip_while (fun d => d = '#') cs).2,
      .inside hash_count)
  else if c = '=' then some (.equals, cs, .inside hash_count)
  else if c = '"' then
    some ((read_attr_val false cs).1, (read_attr_val false cs).2,
      .inside hash_count)
  else if is_name_start c then
    some (.name, (skip_while is_name_continue cs).2, .inside hash_count)
  else none

/-- `Lexer::read_next` (hence `read_inside`/`read_outside`), with fuel for the
two non-structural retries.  Fuel 3 always suffices (`readNextF_fuel`). -/
def readNextF : Nat → LexS → Token × LexS
  | 0, s => (Token.eofAt s.input.length, s)
  | f + 1, s =>
    match s.mode with
    | .outside n =>
      let start := currentPos s
      let rest' := read_outside_loop n s.rest
      let s' : LexS := ⟨s.input, rest', .inside n⟩
      let stop := currentPos s'
      if start < stop then (Token.from_input .text s.input start stop, s')
      else readNextF f s'
    | .inside n =>
      let rest₁ := (skip_while is_whitespace s.rest).2
      let start := s.input.length - rest₁.length
      match rest₁ with
      | [] => (Token.eofAt start, ⟨s.input, [], s.mode⟩)
      | c :: cs =>
        match read_inside_step n c cs with
        | some (k, rest₂, m₂) =>
          let stop := s.input.length - rest₂.length
          let t :=
            if k = .attrVal then Token.from_input k s.input (start + 1) (stop - 1)
            else if k = .unterminatedAttrVal then
              Token.from_input k s.input (start + 1) stop
            else Token.from_input k s.input start stop
          (t, ⟨s.input, rest₂, m₂⟩)
        | none => readNextF f ⟨s.input, cs, .outside 0⟩

def readNext (s : LexS) : Token × LexS := readNextF 3 s

/-- `Lexer::peek` (the one-token buffer is pure memoization). -/
def peekT (s : LexS) : Token := (readNext s).1

/-- `Lexer::pop`. -/
def popT (s : LexS) : Token × LexS := readNext s

def lexInit (input : List Char) : LexS := ⟨input, input, .outside 0⟩

/-! ## CST parser data (src/parser.rs) -/

/-- `TreeKind` of src/parser.rs. -/
inductive UTreeKind where
  | document
  | innerNode
  | openTag
  | tagName (s : List Char)
  | attrs
  | attr
  | attrName (s : List Char)
  | attrVal (s : List Char)
  | closeTag
  | textNode (s : List Char)
deriving DecidableEq, Repr

/-- `Tree` of src/parser.rs (the CST); tree.rs imports it under the alias
`UTree`. -/
inductive UTree where
  | mk (kind : UTreeKind) (start stop : Nat) (children : List UTree)

def UTree.kind : UTree → UTreeKind
  | .mk k _ _ _ => k

def UTree.start : UTree → Nat
  | .mk _ st _ _ => st

def UTree.stop : UTree → Nat
  | .mk _ _ sp _ => sp

def UTree.children : UTree → List UTree
  | .mk _ _ _ c => c

/-- `SyntaxError` of src/parser.rs (`message`, `start`, `end`). -/
structure SyntaxError where
  message : List Char
  start : Nat
  stop : Nat
deriving DecidableEq, Repr

structure ParseResult where
  result : UTree
  errors : List SyntaxError

inductive BuilderItem where
  | inProgress (kind : UTreeKind) (start : Nat)
  | complete (tree : UTree)

/-- `TreeBuilder` of src/parser.rs.  The head of `wip` is the top of the Rust
`Vec` stack.  `panicked` models the `panic!` calls in `complete`/`take`;
`fuelOut` is an artifact of the fueled embedding.  Both are proved to stay
`false` on every input at the canonical fuel. -/
structure TreeBuilder where
  wip : List BuilderItem
  errors : List SyntaxError
  panicked : Bool
  fuelOut : Bool

def TreeBuilder.new : TreeBuilder := ⟨[], [], false, false⟩

/-- `TreeBuilder::open`. -/
def TreeBuilder.open_ (b : TreeBuilder) (kind : UTreeKind) (start : Nat) :
    TreeBuilder :=
  { b with wip := .inProgress kind start :: b.wip }

def TreeBuilder.add_error (b : TreeBuilder) (e : SyntaxError) : TreeBuilder :=
  { b with errors := b.errors ++ [e] }

/-- The loop of `TreeBuilder::complete`: pop completed frames (collecting them
in pop order) until the most recent in-progress frame, which becomes a
complete node whose children are the collected frames in reverse pop order.
`none` models the `panic!("No open item to complete")`. -/
def completeAux (stop : Nat) :
    List BuilderItem → List UTree → Option (List BuilderItem)
  | [], _ => none
  | .inProgress kind start :: rest, children =>
    some (.complete (.mk kind start stop children.reverse) :: rest)
  | .complete t :: rest, children => completeAux stop rest (children ++ [t])

def TreeBuilder.complete (b : TreeBuilder) (stop : Nat) : TreeBuilder :=
  match completeAux stop b.wip [] with
  | some w => { b with wip := w }
  | none => { b with panicked := true }

def TreeBuilder.noFuel (b : TreeBuilder) : TreeBuilder :=
  { b with fuelOut := true }

/-- `TreeBuilder::take`; `none` models its `panic!` arms (and a fuel-starved
run, which never happens at the canonical fuel). -/
def TreeBuilder.take (b : TreeBuilder) : Option ParseResult :=
  if b.panicked || b.fuelOut then none
  else
    match b.wip with
    | [.complete t] => some ⟨t, b.errors⟩
    | _ => none

/-! ## CST parser functions (src/parser.rs) -/

def msgCloseMismatch (opened found : List Char) : List Char :=
  "closing tag must match opening (expected \"".data ++ opened ++
    "\" but found \"".data ++ found ++ "\")".data

def msgUnexpectedNode (found : List Char) : List Char :=
  "expected '<', \"</\", or text, but found \"".data ++ found ++ "\"".data

/-- `parse_text_node`. -/
def parse_text_node (s : LexS) (b : TreeBuilder) : LexS × TreeBuilder :=
  let r := popT s
  let t := r.1
  (r.2, (b.open_ (.textNode t.text) t.span.start).complete t.span.stop)

/-- Tail of `parse_attr` after the `=` handling (both non-returning arms of
the first `match` continue here). -/
def parse_attr_rest (s : LexS) (b : TreeBuilder) : LexS × TreeBuilder :=
  let t := peekT s
  let stop := t.span.stop
  match t.kind with
  | .attrVal | .unterminatedAttrVal =>
    let b :=
      if t.kind = .unterminatedAttrVal then
        b.add_error ⟨"unterminated attribute value".data, t.span.start, t.span.stop⟩
      else b
    let r := popT s
    let attr_val := r.1
    let b := (b.open_ (.attrVal attr_val.text) attr_val.span.start).complete
      attr_val.span.stop
    (r.2, b.complete stop)
  | _ =>
    let b := b.add_error ⟨"expected attribute value".data, t.span.start, t.span.stop⟩
    (s, b.complete t.span.start)

/-- `parse_attr`. -/
def parse_attr (s : LexS) (b : TreeBuilder) : LexS × TreeBuilder :=
  let r := popT s
  let nm := r.1
  let s := r.2
  let b := ((b.open_ .attr nm.span.start).open_ (.attrName nm.text)
    nm.span.start).complete nm.span.stop
  let t := peekT s
  match t.kind with
  | .equals => parse_attr_rest (popT s).2 b
  | .attrVal | .unterminatedAttrVal =>
    parse_attr_rest s
      (b.add_error ⟨"expected '='".data, t.span.start, t.span.stop⟩)
  | _ =>
    let b := b.add_error
      ⟨"expected '=', followed by attribute value".data, t.span.start, t.span.stop⟩
    (s, b.complete t.span.start)

/-- The `while` loop of `parse_attrs`. -/
def parse_attrs_loop : Nat → LexS → TreeBuilder → LexS × TreeBuilder
  | 0, s, b => (s, b.noFuel)
  | fuel + 1, s, b =>
    if (peekT s).kind = .name then
      let r := parse_attr s b
      parse_attrs_loop fuel r.1 r.2
    else (s, b)

/-- `parse_attrs`. -/
def parse_attrs (fuel : Nat) (s : LexS) (b : TreeBuilder) :
    LexS × TreeBuilder :=
  let b := b.open_ .attrs (peekT s).span.start
  let r := parse_attrs_loop fuel s b
  (r.1, r.2.complete (peekT r.1).span.start)

/-- Tail of `parse_open_tag` after the tag-name handling (the `Name` arm and
the `Equals | AttrVal | RAngle` arm both continue into `parse_attrs`). -/
def parse_open_tag_rest (fuel : Nat) (tag_name : Option (List Char))
    (s : LexS) (b : TreeBuilder) :
    Option (List Char) × LexS × TreeBuilder :=
  let r := parse_attrs fuel s b
  let s := r.1
  let b := r.2
  let t := peekT s
  let stop := t.span.stop
  match t.kind with
  | .rAngle => (tag_name, (popT s).2, b.complete stop)
  | _ =>
    let b := b.add_error ⟨"expected '>'".data, t.span.start, t.span.stop⟩
    (tag_name, s, b.complete t.span.start)

/-- `parse_open_tag`; returns the tag name (when one was parsed) for the
closing-tag match check. -/
def parse_open_tag (fuel : Nat) (s : LexS) (b : TreeBuilder) :
    Option (List Char) × LexS × TreeBuilder :=
  let r := popT s
  let langle := r.1
  let s := r.2
  let b := b.open_ .openTag langle.span.start
  let t := peekT s
  match t.kind with
  | .name =>
    let r := popT s
    let nm := r.1
    let b := ((b.open_ (.tagName nm.text) nm.span.start).complete nm.span.stop)
    parse_open_tag_rest fuel (some nm.text) r.2 b
  | .equals | .attrVal | .rAngle =>
    parse_open_tag_rest fuel none s
      (b.add_error ⟨"expected tag name".data, t.span.start, t.span.stop⟩)
  | _ =>
    let b := b.add_error
      ⟨"expected tag name, followed by attributes and '>'".data,
        t.span.start, t.span.stop⟩
    (none, s, b.complete t.span.start)

/-- The `CloseTag` record returned by `parse_close_tag`. -/
structure CloseTagInfo where
  name : List Char
  start : Nat
  stop : Nat
deriving DecidableEq, Repr

/-- Tail of `parse_close_tag` after the tag-name handling. -/
def parse_close_tag_rest (tag_info : Option CloseTagInfo)
    (s : LexS) (b : TreeBuilder) :
    Option CloseTagInfo × LexS × TreeBuilder :=
  let t := peekT s
  let stop := t.span.stop
  match t.kind with
  | .rAngle => (tag_info, (popT s).2, b.complete stop)
  | _ =>
    let b := b.add_error ⟨"expected '>'".data, t.span.start, t.span.stop⟩
    (tag_info, s, b.complete t.span.start)

/-- The tail of `parse_close_tag` after the orphaned-hashes check. -/
def parse_close_tag_main (s : LexS) (b : TreeBuilder) :
    Option CloseTagInfo × LexS × TreeBuilder :=
  let t := peekT s
  match t.kind with
  | .name =>
    let r := popT s
    let nm := r.1
    let b := ((b.open_ (.tagName nm.text) nm.span.start).complete nm.span.stop)
    parse_close_tag_rest (some ⟨nm.text, nm.span.start, nm.span.stop⟩) r.2 b
  | .rAngle =>
    parse_close_tag_rest none s
      (b.add_error ⟨"expected tag name".data, t.span.start, t.span.stop⟩)
  | _ =>
    let b := b.add_error
      ⟨"expected tag name, followed by '>'".data, t.span.start, t.span.stop⟩
    (none, s, b.complete t.span.start)

/-- `parse_close_tag`. -/
def parse_close_tag (s : LexS) (b : TreeBuilder) :
    Option CloseTagInfo × LexS × TreeBuilder :=
  let r := popT s
  let langle_slash := r.1
  let s := r.2
  let b := b.open_ .closeTag langle_slash.span.start
  if (peekT s).kind = .orphanHashes then
    let r₂ := popT s
    parse_close_tag_main r₂.2
      (b.add_error ⟨"orphaned hashes".data, r₂.1.span.start, r₂.1.span.stop⟩)
  else parse_close_tag_main s b

mutual

/-- The `loop` of `parse_nodes`. -/
def parse_nodes : Nat → LexS → TreeBuilder → LexS × TreeBuilder
  | 0, s, b => (s, b.noFuel)
  | fuel + 1, s, b =>
    let t := peekT s
    match t.kind with
    | .lAngleSlash | .eof => (s, b)
    | .lAngle =>
      let r := parse_inner_node fuel s b
      parse_nodes fuel r.1 r.2
    | .text =>
      let r := parse_text_node s b
      parse_nodes fuel r.1 r.2
    | _ =>
      parse_nodes fuel (popT s).2
        (b.add_error ⟨msgUnexpectedNode t.text, t.span.start, t.span.stop⟩)

/-- `parse_inner_node`. -/
def parse_inner_node : Nat → LexS → TreeBuilder → LexS × TreeBuilder
  | 0, s, b => (s, b.noFuel)
  | fuel + 1, s, b =>
    let b := b.open_ .innerNode (peekT s).span.start
    let r₁ := parse_open_tag (fuel + 1) s b
    let open_tag_name := r₁.1
    let r₂ := parse_nodes fuel r₁.2.1 r₁.2.2
    let s₂ := r₂.1
    let b₂ := r₂.2
    let t := peekT s₂
    if t.kind = .eof then
      (s₂, (b₂.complete t.span.start).add_error
        ⟨"expected closing tag, but found EOF".data, t.span.start, t.span.stop⟩)
    else
      let r₃ := parse_close_tag s₂ b₂
      let close_tag := r₃.1
      let s₃ := r₃.2.1
      let b₃ := (r₃.2.2).complete (peekT s₃).span.start
      match open_tag_name, close_tag with
      | some opened, some info =>
        if opened ≠ info.name then
          (s₃, b₃.add_error
            ⟨msgCloseMismatch opened info.name, info.start, info.stop⟩)
        else (s₃, b₃)
      | _, _ => (s₃, b₃)

end

/-- The first `loop` of `parse_document` (skip tokens until `<`); the returned
Bool is true when the loop hit Eof and already errored and completed the
Document (the early `return` inside the loop). -/
def parse_document_skip : Nat → LexS → TreeBuilder → LexS × TreeBuilder × Bool
  | 0, s, b => (s, b.noFuel, true)
  | fuel + 1, s, b =>
    let t := peekT s
    match t.kind with
    | .lAngle => (s, b, false)
    | .eof =>
      (s, ((b.add_error ⟨"unexpected EOF".data, t.span.start, t.span.stop⟩).complete
        t.span.start), true)
    | _ => parse_document_skip fuel (popT s).2 b

/-- The second `loop` of `parse_document` (drain remaining tokens). -/
def parse_document_drain : Nat → LexS → LexS × Bool
  | 0, s => (s, true)
  | fuel + 1, s =>
    match (peekT s).kind with
    | .eof => (s, false)
    | _ => parse_document_drain fuel (popT s).2

/-- `parse_document`. -/
def parse_document (fuel : Nat) (s : LexS) (b : TreeBuilder) :
    LexS × TreeBuilder :=
  let b := b.open_ .document (peekT s).span.start
  let r := parse_document_skip fuel s b
  if r.2.2 then (r.1, r.2.1)
  else
    let r₁ := parse_inner_node fuel r.1 r.2.1
    let r₂ := parse_document_drain fuel r₁.1
    let s₂ := r₂.1
    let b₂ := if r₂.2 then r₁.2.noFuel else r₁.2
    (s₂, b₂.complete (peekT s₂).span.start)

/-- `parse`, returning the final builder state. -/
def parseF (fuel : Nat) (input : List Char) : TreeBuilder :=
  (parse_document fuel (lexInit input) TreeBuilder.new).2

/-- `parse` at the canonical fuel (proved sufficient below). -/
def parse (input : List Char) : TreeBuilder :=
  parseF (2 * input.length + 4) input

/-! ## Semantic tree converter (src/tree.rs) -/

/-- `Tree` of src/tree.rs (the semantic tree).  Named `STree` here because
Mathlib already declares a root `Tree`. -/
inductive STree where
  | text (s : List Char)
  | inner (tag_name : List Char) (attrs : List (List Char × List Char))
      (children : List STree)

/-- `Attrs` of src/tree.rs. -/
def Attrs := List (List Char × List Char)

structure OpenTagSem where
  name : List Char
  attrs : List (List Char × List Char)

/-- tree.rs `parse_attr`: pops the value then the name; any shape deviation is
a panic (`none`). -/
def sem_parse_attr (t : UTree) : Option (List Char × List Char) :=
  match t with
  | .mk .attr _ _ cs =>
    match cs.getLast? with
    | none => none
    | some value =>
      match cs.dropLast.getLast? with
      | none => none
      | some nm =>
        match nm.kind, value.kind with
        | .attrName n, .attrVal v => some (n, v)
        | _, _ => none
  | _ => none

def sem_parse_attr_list : List UTree → Option (List (List Char × List Char))
  | [] => some []
  | t :: ts =>
    match sem_parse_attr t, sem_parse_attr_list ts with
    | some a, some as_ => some (a :: as_)
    | _, _ => none

/-- tree.rs `parse_attrs`. -/
def sem_parse_attrs (t : UTree) : Option (List (List Char × List Char)) :=
  match t with
  | .mk .attrs _ _ cs => sem_parse_attr_list cs
  | _ => none

/-- tree.rs `parse_open_tag`: pops the attributes node, then the tag-name
node. -/
def sem_parse_open_tag (t : UTree) : Option OpenTagSem :=
  match t with
  | .mk .openTag _ _ cs =>
    match cs.getLast? with
    | none => none
    | some attrsNode =>
      match cs.dropLast.getLast? with
      | none => none
      | some tagNode =>
        match sem_parse_attrs attrsNode with
        | none => none
        | some as_ =>
          match tagNode.kind with
          | .tagName n => some ⟨n, as_⟩
          | _ => none
  | _ => none

theorem sizeOf_dropLast_le (l : List UTree) : sizeOf l.dropLast ≤ sizeOf l := by
  induction l with
  | nil => simp
  | cons x xs ih =>
    cases xs with
    | nil => simp [List.dropLast]
    | cons y ys =>
      simp only [List.dropLast, List.cons.sizeOf_spec] at *
      omega

mutual

/-- tree.rs `parse_inner`: extracts the first child as the open tag and the
last child as the close tag (via the swap/pop/get dance on the child vector);
everything strictly between is the body.  Panics (`none`) when the children
list is empty, when there is no close-tag slot, or when the close slot is not
a `CloseTag`. -/
def sem_parse_inner (t : UTree) : Option STree :=
  match t with
  | .mk .innerNode _ _ (c₀ :: rest) =>
    match sem_parse_open_tag c₀ with
    | none => none
    | some ot =>
      match rest.getLast? with
      | none => none
      | some lastc =>
        if lastc.kind = .closeTag then
          match sem_parse_node_list rest.dropLast with
          | none => none
          | some cs => some (.inner ot.name ot.attrs cs)
        else none
  | _ => none
termination_by (sizeOf t, 0)
decreasing_by
  simp_wf
  have := sizeOf_dropLast_le rest
  simp only [UTree.mk.sizeOf_spec, List.cons.sizeOf_spec] at *
  omega

/-- tree.rs `parse_node`. -/
def sem_parse_node (t : UTree) : Option STree :=
  match t with
  | .mk .innerNode st sp cs => sem_parse_inner (.mk .innerNode st sp cs)
  | .mk (.textNode content) _ _ _ => some (.text content)
  | _ => none
termination_by (sizeOf t, 1)
decreasing_by exact Prod.Lex.right _ (by omega)

def sem_parse_node_list (ts : List UTree) : Option (List STree) :=
  match ts with
  | [] => some []
  | t :: ts' =>
    match sem_parse_node t, sem_parse_node_list ts' with
    | some x, some xs => some (x :: xs)
    | _, _ => none
termination_by (sizeOf ts, 2)
decreasing_by
  all_goals apply Prod.Lex.left
  all_goals simp only [List.cons.sizeOf_spec]
  all_goals omega

end

/-- tree.rs `parse_doc`: pops the single child (panicking when there are zero
or several). -/
def sem_parse_doc (t : UTree) : Option STree :=
  match t with
  | .mk .document _ _ [inner] => sem_parse_inner inner
  | _ => none

/-- `impl From<UTree> for Tree` of src/tree.rs; `none` models the panic
branches. -/
def tree_from (t : UTree) : Option STree :=
  match t.kind with
  | .document => sem_parse_doc t
  | _ => none

/-! ## Transform engine (src/processor.rs) -/

/-- `Transform` of src/processor.rs. -/
def Transform := List (List Char × List Char) → List STree → STree

mutual

/-- `Processor::process`.  The transform table is modelled as a lookup
function (Rust: `HashMap` keyed by exact tag name).  The fuel bounds the depth
of re-expansion of transform output, which the Rust code leaves unbounded (its
recursion on a transform result is not structurally decreasing); children are
processed first (post-order), then a registered transform's replacement is
itself processed. -/
def process (transforms : List Char → Option Transform) (fuel : Nat)
    (t : STree) : Option STree :=
  match t with
  | .text s => some (.text s)
  | .inner tag_name attrs children =>
    match process_list transforms fuel children with
    | none => none
    | some cs =>
      match transforms tag_name with
      | some tr =>
        if h : fuel = 0 then none
        else process transforms (fuel - 1) (tr attrs cs)
      | none => some (.inner tag_name attrs cs)
termination_by (fuel, sizeOf t)
decreasing_by
  all_goals first
    | exact Prod.Lex.left _ _ (by omega)
    | (apply Prod.Lex.right
       simp only [STree.inner.sizeOf_spec, List.cons.sizeOf_spec]
       omega)

def process_list (transforms : List Char → Option Transform) (fuel : Nat)
    (ts : List STree) : Option (List STree) :=
  match ts with
  | [] => some []
  | t :: ts' =>
    match process transforms fuel t, process_list transforms fuel ts' with
    | some x, some xs => some (x :: xs)
    | _, _ => none
termination_by (fuel, sizeOf ts)
decreasing_by
  all_goals first
    | exact Prod.Lex.left _ _ (by omega)
    | (apply Prod.Lex.right
       simp only [List.cons.sizeOf_spec]
       omega)

end

/-- A one-entry transform: `Title` elements are rewritten to `Subtitle`
elements with the same attributes and children. -/
def titleTransform : Transform := fun attrs children =>
  .inner "Subtitle".data attrs children

/-- A transform table registering `titleTransform` under the tag name
`Title` (the Rust `HashMap` modelled as a lookup function). -/
def titleTable (n : List Char) : Option Transform :=
  if n = "Title".data then some titleTransform else none

/-! ## pos_to_line (src/syntax_error.rs) -/

/-- The `while` loop of `pos_to_line`.  Note that the inner `chars.next()`
after a carriage return consumes a character without decrementing `pos`, and
that the wildcard arm after a carriage return does not increment the line
counter. -/
def pos_to_line_go (line : Nat) : Nat → List Char → Nat
  | _, [] => line
  | pos, c :: cs =>
    if pos = 0 then line
    else
      let pos' := pos - 1
      if c = '\n' then pos_to_line_go (line + 1) pos' cs
      else if c = '\r' then
        match cs with
        | [] => pos_to_line_go line pos' []
        | d :: ds =>
          if d = '\n' then pos_to_line_go (line + 1) pos' ds
          else if d = '\r' then pos_to_line_go (line + 2) pos' ds
          else pos_to_line_go line pos' ds
      else pos_to_line_go line pos' cs

/-- `pos_to_line` of src/syntax_error.rs. -/
def pos_to_line (pos : Nat) (source : List Char) : Nat :=
  pos_to_line_go 1 pos source

/-! ## Shape predicates for the CST invariants (spec §3) -/

/-- A CST node allowed in an `InnerNode` body: an `InnerNode` or a
`TextNode`. -/
def isBodyKind (t : UTree) : Bool :=
  match t.kind with
  | .innerNode => true
  | .textNode _ => true
  | _ => false

/-- The children of an `InnerNode` after the leading `OpenTag`: zero or more
body nodes followed by at most one `CloseTag` (which, when present, is
last). -/
def innerRestOk : List UTree → Bool
  | [] => true
  | [t] => isBodyKind t || decide (t.kind = .closeTag)
  | t :: rest => isBodyKind t && innerRestOk rest

/-- The child-shape invariant of an `InnerNode`: exactly one leading
`OpenTag`, then body nodes, then at most one trailing `CloseTag`. -/
def innerChildrenOk : List UTree → Bool
  | [] => false
  | c :: rest => decide (c.kind = .openTag) && innerRestOk rest

mutual

/-- Every `InnerNode` anywhere in the tree satisfies `innerChildrenOk`. -/
def allInnerWf : UTree → Bool
  | .mk k _ _ children =>
    (match k with
     | .innerNode => innerChildrenOk children
     | _ => true) && allInnerWfList children

def allInnerWfList : List UTree → Bool
  | [] => true
  | t :: ts => allInnerWf t && allInnerWfList ts

end

/-- The strong (error-free) shape of an `Attr` node: exactly an `AttrName`
child followed by an `AttrVal` child. -/
def strongAttr (t : UTree) : Bool :=
  match t with
  | .mk .attr _ _ [a, v] =>
    (match a.kind with | .attrName _ => true | _ => false) &&
    (match v.kind with | .attrVal _ => true | _ => false)
  | _ => false

def strongAttrList : List UTree → Bool
  | [] => true
  | t :: ts => strongAttr t && strongAttrList ts

/-- The strong (error-free) shape of an `OpenTag` node: exactly a `TagName`
child followed by an `Attrs` child whose children are all strong `Attr`s. -/
def strongOpen (t : UTree) : Bool :=
  match t with
  | .mk .openTag _ _ [tn, asn] =>
    (match tn.kind with | .tagName _ => true | _ => false) &&
    (match asn with
     | .mk .attrs _ _ acs => strongAttrList acs
     | _ => false)
  | _ => false

mutual

/-- The strong (error-free) shape of an `InnerNode`: a strong `OpenTag`, then
strong body nodes, then exactly one trailing `CloseTag`. -/
def strongInner (t : UTree) : Bool :=
  match t with
  | .mk .innerNode _ _ (c₀ :: rest) => strongOpen c₀ && strongRest rest
  | _ => false
termination_by (sizeOf t, 1)
decreasing_by
  apply Prod.Lex.left
  simp only [UTree.mk.sizeOf_spec, List.cons.sizeOf_spec]
  omega

def strongRest : List UTree → Bool
  | [] => false
  | [t] => decide (t.kind = .closeTag)
  | t :: rest => strongBody t && strongRest rest
termination_by ts => (sizeOf ts, 0)
decreasing_by
  all_goals apply Prod.Lex.left
  all_goals simp only [List.cons.sizeOf_spec]
  all_goals omega

def strongBody (t : UTree) : Bool :=
  match t.kind with
  | .textNode _ => true
  | .innerNode => strongInner t
  | _ => false
termination_by (sizeOf t, 2)
decreasing_by
  exact Prod.Lex.right _ (by omega)

end

/-- The strong shape of the whole CST: a `Document` with exactly one strong
`InnerNode` child. -/
def strongDoc (t : UTree) : Bool :=
  match t with
  | .mk .document _ _ [c] => strongInner c
  | _ => false

/-- The builder effect of a parser component: the lexer advances within the
same input, the builder gains exactly the completed trees `ts` (in
chronological completion order, so the head of `wip` is the most recent) and
the errors `Δ` (in detection order), and the panic/fuel flags are
untouched. -/
def Effect (s s' : LexS) (b b' : TreeBuilder) (ts : List UTree)
    (Δ : List SyntaxError) : Prop :=
  s'.input = s.input ∧ s'.rest.length ≤ s.rest.length ∧
  b'.wip = ts.reverse.map BuilderItem.complete ++ b.wip ∧
  b'.errors = b.errors ++ Δ ∧ b'.panicked = b.panicked ∧ b'.fuelOut = b.fuelOut

/-! ## Lexer lemmas -/

theorem skip_while_len (p : Char → Bool) (l : List Char) :
    (skip_while p l).2.length ≤ l.length := by
  induction l with
  | nil => simp [skip_while]
  | cons c cs ih =>
    simp only [skip_while]
    split
    · simpa using Nat.le_succ_of_le ih
    · simp

theorem read_attr_val_len (e : Bool) (l : List Char) :
    (read_attr_val e l).2.length ≤ l.length := by
  induction l generalizing e with
  | nil => simp [read_attr_val]
  | cons c cs ih =>
    simp only [read_attr_val]
    split
    · simp
    · split
      · exact Nat.le_succ_of_le (ih true)
      · split
        · simp
        · exact Nat.le_succ_of_le (ih false)

theorem read_outside_loop_len (n : Nat) (l : List Char) :
    (read_outside_loop n l).length ≤ l.length := by
  induction l with
  | nil => simp [read_outside_loop]
  | cons c cs ih =>
    simp only [read_outside_loop]
    split
    · split
      · simp
      · split
        · simp
        · exact Nat.le_succ_of_le ih
    · exact Nat.le_succ_of_le ih

/-- The stop position of `read_outside_loop` is either the whole input
(immediate stop) or strictly inside it. -/
theorem read_outside_loop_cases (n : Nat) (l : List Char) :
    read_outside_loop n l = l ∨ (read_outside_loop n l).length < l.length := by
  cases l with
  | nil => left; simp [read_outside_loop]
  | cons c cs =>
    simp only [read_outside_loop]
    split
    · split
      · left; rfl
      · split
        · left; rfl
        · right
          exact Nat.lt_succ_of_le (read_outside_loop_len n cs)
    · right
      exact Nat.lt_succ_of_le (read_outside_loop_len n cs)

/-- `read_outside_loop` stops only at the end of input or at a `<`. -/
theorem read_outside_loop_head (n : Nat) (l : List Char) :
    read_outside_loop n l = [] ∨
      ∃ cs, read_outside_loop n l = '<' :: cs := by
  induction l with
  | nil => left; simp [read_outside_loop]
  | cons c cs ih =>
    simp only [read_outside_loop]
    split
    · rename_i hc
      split
      · right; exact ⟨cs, by rw [hc]⟩
      · split
        · right; exact ⟨cs, by rw [hc]⟩
        · exact ih
    · exact ih

theorem read_inside_step_len {n : Nat} {c : Char} {cs : List Char}
    {k : TokenKind} {rest₂ : List Char} {m : LexerMode}
    (h : read_inside_step n c cs = some (k, rest₂, m)) :
    rest₂.length ≤ cs.length := by
  have hsw : (skip_while (fun d => d = '#') cs).2.length ≤ cs.length :=
    skip_while_len _ cs
  have hav : (read_attr_val false cs).2.length ≤ cs.length :=
    read_attr_val_len false cs
  have hnm : (skip_while is_name_continue cs).2.length ≤ cs.length :=
    skip_while_len _ cs
  unfold read_inside_step at h
  split_ifs at h <;>
    simp only [Option.some.injEq, Prod.mk.injEq] at h
  all_goals obtain ⟨-, h₂, -⟩ := h
  all_goals subst h₂
  all_goals try simp only [List.length_drop]
  all_goals omega

theorem read_attr_val_kind (e : Bool) (l : List Char) :
    (read_attr_val e l).1 = .attrVal ∨
      (read_attr_val e l).1 = .unterminatedAttrVal := by
  induction l generalizing e with
  | nil => right; simp [read_attr_val]
  | cons c cs ih =>
    simp only [read_attr_val]
    split
    · right; rfl
    · split
      · exact ih true
      · split
        · left; rfl
        · exact ih false

theorem read_inside_step_ne_eof {n : Nat} {c : Char} {cs : List Char}
    {k : TokenKind} {rest₂ : List Char} {m : LexerMode}
    (h : read_inside_step n c cs = some (k, rest₂, m)) : k ≠ .eof := by
  unfold read_inside_step at h
  split_ifs at h <;>
    simp only [Option.some.injEq, Prod.mk.injEq] at h
  all_goals obtain ⟨h₁, -, -⟩ := h
  all_goals subst h₁
  all_goals intro hk
  all_goals try simp_all
  rcases read_attr_val_kind false cs with hv | hv <;> simp_all

theorem readNextF_input (f : Nat) (s : LexS) :
    (readNextF f s).2.input = s.input := by
  induction f generalizing s with
  | zero => rfl
  | succ f ih =>
    obtain ⟨inp, rest, mode⟩ := s
    cases mode with
    | outside n =>
      simp only [readNextF]
      split
      · rfl
      · exact ih _
    | inside n =>
      simp only [readNextF]
      split
      · rfl
      · split
        · rfl
        · exact ih _

theorem readNextF_le (f : Nat) (s : LexS) :
    (readNextF f s).2.rest.length ≤ s.rest.length := by
  induction f generalizing s with
  | zero => exact Nat.le_refl _
  | succ f ih =>
    obtain ⟨inp, rest, mode⟩ := s
    cases mode with
    | outside n =>
      simp only [readNextF]
      split
      · exact read_outside_loop_len n rest
      · exact le_trans (ih _) (read_outside_loop_len n rest)
    | inside n =>
      have hws : (skip_while is_whitespace rest).2.length ≤ rest.length :=
        skip_while_len _ rest
      simp only [readNextF]
      split
      · simp
      · rename_i c cs heq
        split
        · rename_i k rest₂ m₂ hstep
          have := read_inside_step_len hstep
          have hlen : (c :: cs).length ≤ rest.length := by rw [← heq]; exact hws
          simp only [List.length_cons] at hlen
          simp only []
          omega
        · have := ih (⟨inp, cs, .outside 0⟩ : LexS)
          have hlen : (c :: cs).length ≤ rest.length := by rw [← heq]; exact hws
          simp only [List.length_cons] at hlen
          simp only [] at this ⊢
          omega

theorem readNextF_lt (f : Nat) (s : LexS)
    (h : (readNextF f s).1.kind ≠ .eof) :
    (readNextF f s).2.rest.length < s.rest.length := by
  induction f generalizing s with
  | zero => exact absurd rfl h
  | succ f ih =>
    obtain ⟨inp, rest, mode⟩ := s
    cases mode with
    | outside n =>
      simp only [readNextF] at h ⊢
      by_cases hc : currentPos (⟨inp, rest, .outside n⟩ : LexS) <
          currentPos (⟨inp, read_outside_loop n rest, .inside n⟩ : LexS)
      · rw [if_pos hc] at h ⊢
        simp only [currentPos] at hc
        simp only []
        omega
      · rw [if_neg hc] at h ⊢
        exact lt_of_lt_of_le (ih _ h) (read_outside_loop_len n rest)
    | inside n =>
      have hws : (skip_while is_whitespace rest).2.length ≤ rest.length :=
        skip_while_len _ rest
      simp only [readNextF] at h ⊢
      split at h
      · exact absurd rfl h
      · rename_i c cs heq
        rw [heq] at hws
        simp only [List.length_cons] at hws
        revert h
        split
        · rename_i k rest₂ m₂ hstep
          have := read_inside_step_len hstep
          intro h
          simp only []
          omega
        · intro h
          have := ih (⟨inp, cs, .outside 0⟩ : LexS) h
          simp only [] at this ⊢
          omega

/-- An Eof token is always produced at the end of the input. -/
theorem readNextF_eof_start (f : Nat) (s : LexS)
    (h : (readNextF f s).1.kind = .eof) :
    (readNextF f s).1.span.start = s.input.length := by
  induction f generalizing s with
  | zero => rfl
  | succ f ih =>
    obtain ⟨inp, rest, mode⟩ := s
    cases mode with
    | outside n =>
      simp only [readNextF] at h ⊢
      by_cases hc : currentPos (⟨inp, rest, .outside n⟩ : LexS) <
          currentPos (⟨inp, read_outside_loop n rest, .inside n⟩ : LexS)
      · rw [if_pos hc] at h
        simp [Token.from_input] at h
      · rw [if_neg hc] at h ⊢
        exact ih _ h
    | inside n =>
      simp only [readNextF] at h ⊢
      split at h
      · rename_i heq
        simp [Token.eofAt, heq]
      · rename_i c cs heq
        revert h
        split
        · rename_i k rest₂ m₂ hstep
          have hk := read_inside_step_ne_eof hstep
          intro h
          exfalso
          apply hk
          revert h
          split
          · intro h
            simpa [Token.from_input] using h
          · split
            · intro h
              simpa [Token.from_input] using h
            · intro h
              simpa [Token.from_input] using h
        · intro h
          exact ih _ h

/-- A remaining input at which the lexer never takes the defensive fallback:
empty, or starting with an angle bracket. -/
def goodRest (l : List Char) : Prop := l = [] ∨ l.head? = some '<'

theorem skip_ws_good {l : List Char} (h : goodRest l) :
    (skip_while is_whitespace l).2 = l := by
  rcases h with h | h
  · subst h; rfl
  · cases l with
    | nil => rfl
    | cons c cs =>
      simp only [List.head?] at h
      injection h with h
      subst h
      simp [skip_while, is_whitespace]

theorem read_inside_step_langle (n : Nat) (cs : List Char) :
    ∃ v, read_inside_step n '<' cs = some v := by
  unfold read_inside_step
  rw [if_pos rfl]
  split <;> exact ⟨_, rfl⟩

/-- Fuel stability for inside-mode states whose (whitespace-skipped) rest is
empty or starts with `<`. -/
theorem readNextF_inside_stable (f₁ f₂ : Nat) (inp rest : List Char) (n : Nat)
    (h : goodRest ((skip_while is_whitespace rest).2)) :
    readNextF (f₁ + 1) ⟨inp, rest, .inside n⟩ =
      readNextF (f₂ + 1) ⟨inp, rest, .inside n⟩ := by
  simp only [readNextF]
  split
  · rfl
  · rename_i c cs heq
    have hc : c = '<' := by
      rcases h with h | h
      · rw [heq] at h; cases h
      · rw [heq] at h
        simp only [List.head?, Option.some.injEq] at h
        exact h
    subst hc
    obtain ⟨v, hv⟩ := read_inside_step_langle n cs
    rw [hv]

/-- Fuel stability for outside-mode states at fuel at least 2. -/
theorem readNextF_outside_stable (f₁ f₂ : Nat) (inp rest : List Char)
    (n : Nat) :
    readNextF (f₁ + 2) ⟨inp, rest, .outside n⟩ =
      readNextF (f₂ + 2) ⟨inp, rest, .outside n⟩ := by
  show readNextF (f₁ + 1 + 1) _ = readNextF (f₂ + 1 + 1) _
  simp only [readNextF]
  split
  · rfl
  · have hg : goodRest (read_outside_loop n rest) := by
      rcases read_outside_loop_head n rest with h | ⟨cs, h⟩
      · exact Or.inl h
      · exact Or.inr (by rw [h]; rfl)
    apply readNextF_inside_stable
    rw [skip_ws_good hg]
    exact hg

/-- Fuel 3 suffices for the lexer: the sentinel fuel-out case of `readNextF`
is unreachable from `readNext`. -/
theorem readNextF_fuel (f : Nat) (s : LexS) :
    readNextF (f + 3) s = readNextF 3 s := by
  obtain ⟨inp, rest, mode⟩ := s
  cases mode with
  | outside n =>
    exact readNextF_outside_stable (f + 1) 1 inp rest n
  | inside n =>
    show readNextF (f + 2 + 1) _ = readNextF (2 + 1) _
    simp only [readNextF]
    split
    · rfl
    · split
      · rfl
      · exact readNextF_outside_stable f 0 inp _ 0

theorem readNext_input (s : LexS) : (readNext s).2.input = s.input :=
  readNextF_input 3 s

theorem readNext_le (s : LexS) :
    (readNext s).2.rest.length ≤ s.rest.length :=
  readNextF_le 3 s

theorem readNext_lt (s : LexS) (h : (readNext s).1.kind ≠ .eof) :
    (readNext s).2.rest.length < s.rest.length :=
  readNextF_lt 3 s h

theorem peek_eof_start (s : LexS) (h : (peekT s).kind = .eof) :
    (peekT s).span.start = s.input.length :=
  readNextF_eof_start 3 s h

theorem read_inside_step_langle_kind {n : Nat} {cs : List Char}
    {k : TokenKind} {rest₂ : List Char} {m : LexerMode}
    (h : read_inside_step n '<' cs = some (k, rest₂, m)) :
    k = .lAngleSlash ∨ k = .lAngle := by
  unfold read_inside_step at h
  rw [if_pos rfl] at h
  split at h <;> simp only [Option.some.injEq, Prod.mk.injEq] at h
  · exact Or.inl h.1.symm
  · exact Or.inr h.1.symm

/-- The first token of a fresh lexer starts at position 0. -/
theorem peek_lexInit_start (cs : List Char) :
    (peekT (lexInit cs)).span.start = 0 := by
  show (readNextF 3 ⟨cs, cs, .outside 0⟩).1.span.start = 0
  simp only [readNextF]
  by_cases hc : currentPos (⟨cs, cs, .outside 0⟩ : LexS) <
      currentPos (⟨cs, read_outside_loop 0 cs, .inside 0⟩ : LexS)
  · rw [if_pos hc]
    simp [Token.from_input, currentPos]
  · rw [if_neg hc]
    have hlen := read_outside_loop_len 0 cs
    have hr : read_outside_loop 0 cs = cs := by
      rcases read_outside_loop_cases 0 cs with h | h
      · exact h
      · exfalso
        apply hc
        simp only [currentPos]
        omega
    have hg : goodRest cs := by
      rcases read_outside_loop_head 0 cs with h | ⟨cs', h⟩
      · exact Or.inl (hr ▸ h)
      · exact Or.inr (by rw [← hr, h]; rfl)
    rw [hr]
    rcases hg with hg | hg
    · subst hg
      simp [skip_while, Token.eofAt]
    · cases cs with
      | nil => cases hg
      | cons c cs' =>
        simp only [List.head?, Option.some.injEq] at hg
        subst hg
        rw [skip_ws_good (Or.inr (by simp : ('<' :: cs').head? = some '<'))]
        simp only []
        obtain ⟨⟨k, rest₂, m₂⟩, hv⟩ := read_inside_step_langle 0 cs'
        rw [hv]
        rcases read_inside_step_langle_kind hv with hk | hk <;> subst hk <;>
          simp [Token.from_input, currentPos]

/-! ## Builder lemmas -/

theorem completeAux_append (stop : Nat) (l : List UTree) (k : UTreeKind)
    (st : Nat) (w : List BuilderItem) (acc : List UTree) :
    completeAux stop (l.map BuilderItem.complete ++ .inProgress k st :: w) acc
      = some (.complete (.mk k st stop (acc ++ l).reverse) :: w) := by
  induction l generalizing acc with
  | nil => simp [completeAux]
  | cons t l ih =>
    simp only [List.map_cons, List.cons_append, completeAux, List.append_eq]
    rw [ih]
    simp

/-- `TreeBuilder::complete` on a stack whose top is the chronological pushes
`ts` above an in-progress frame: the frame becomes a complete node whose
children are `ts` in order. -/
theorem complete_push (b : TreeBuilder) (ts : List UTree) (k : UTreeKind)
    (st stop : Nat) (w : List BuilderItem)
    (hw : b.wip = ts.reverse.map BuilderItem.complete ++ .inProgress k st :: w) :
    b.complete stop =
      { b with wip := .complete (.mk k st stop ts) :: w } := by
  unfold TreeBuilder.complete
  rw [hw, completeAux_append]
  simp

theorem Effect.refl (s : LexS) (b : TreeBuilder) : Effect s s b b [] [] := by
  refine ⟨rfl, Nat.le_refl _, by simp, by simp, rfl, rfl⟩

theorem Effect.trans {s s₁ s₂ : LexS} {b b₁ b₂ : TreeBuilder}
    {ts₁ ts₂ : List UTree} {Δ₁ Δ₂ : List SyntaxError}
    (h₁ : Effect s s₁ b b₁ ts₁ Δ₁) (h₂ : Effect s₁ s₂ b₁ b₂ ts₂ Δ₂) :
    Effect s s₂ b b₂ (ts₁ ++ ts₂) (Δ₁ ++ Δ₂) := by
  obtain ⟨hi₁, hl₁, hw₁, he₁, hp₁, hf₁⟩ := h₁
  obtain ⟨hi₂, hl₂, hw₂, he₂, hp₂, hf₂⟩ := h₂
  refine ⟨hi₂.trans hi₁, le_trans hl₂ hl₁, ?_, ?_, hp₂.trans hp₁,
    hf₂.trans hf₁⟩
  · rw [hw₂, hw₁, List.reverse_append, List.map_append, List.append_assoc]
  · rw [he₂, he₁, List.append_assoc]

theorem Effect.pop (s : LexS) (b : TreeBuilder) :
    Effect s (popT s).2 b b [] [] :=
  ⟨readNext_input s, readNext_le s, by simp, by simp, rfl, rfl⟩

theorem Effect.add_error (s : LexS) (b : TreeBuilder) (e : SyntaxError) :
    Effect s s b (b.add_error e) [] [e] := by
  refine ⟨rfl, Nat.le_refl _, by simp [TreeBuilder.add_error], by
    simp [TreeBuilder.add_error], rfl, rfl⟩

/-! ## Shape helper lemmas -/

theorem allInnerWfList_of_forall {l : List UTree}
    (h : ∀ t ∈ l, allInnerWf t = true) : allInnerWfList l = true := by
  induction l with
  | nil => rfl
  | cons t ts ih =>
    simp only [allInnerWfList, Bool.and_eq_true]
    exact ⟨h t (by simp), ih fun u hu => h u (by simp [hu])⟩

theorem innerRestOk_bodies {ts : List UTree}
    (h : ∀ t ∈ ts, isBodyKind t = true) : innerRestOk ts = true := by
  induction ts with
  | nil => rfl
  | cons t ts ih =>
    cases ts with
    | nil => simp [innerRestOk, h t (by simp)]
    | cons u us =>
      simp only [innerRestOk, Bool.and_eq_true]
      exact ⟨h t (by simp), ih fun v hv => h v (by simp [hv])⟩

theorem innerRestOk_bodies_close {ts : List UTree} {c : UTree}
    (h : ∀ t ∈ ts, isBodyKind t = true) (hc : c.kind = .closeTag) :
    innerRestOk (ts ++ [c]) = true := by
  induction ts with
  | nil => simp [innerRestOk, hc]
  | cons t ts ih =>
    have htail := ih fun v hv => h v (by simp [hv])
    cases hts : ts ++ [c] with
    | nil => simp at hts
    | cons u us =>
      simp only [List.cons_append, hts, innerRestOk]
      rw [← hts, htail]
      simp [h t (by simp)]

theorem strongRest_append {ts : List UTree} {c : UTree}
    (h : ∀ t ∈ ts, strongBody t = true) (hc : c.kind = .closeTag) :
    strongRest (ts ++ [c]) = true := by
  induction ts with
  | nil => simp [strongRest, hc]
  | cons t ts ih =>
    have htail := ih fun v hv => h v (by simp [hv])
    cases hts : ts ++ [c] with
    | nil => simp at hts
    | cons u us =>
      simp only [List.cons_append, hts, strongRest]
      rw [← hts, htail]
      simp [h t (by simp)]

theorem strongAttrList_of_forall {l : List UTree}
    (h : ∀ t ∈ l, strongAttr t = true) : strongAttrList l = true := by
  induction l with
  | nil => rfl
  | cons t ts ih =>
    simp only [strongAttrList, Bool.and_eq_true]
    exact ⟨h t (by simp), ih fun u hu => h u (by simp [hu])⟩

/-! ## Parser component specifications -/

theorem popT_input (s : LexS) : (popT s).2.input = s.input :=
  readNext_input s

theorem popT_le (s : LexS) : (popT s).2.rest.length ≤ s.rest.length :=
  readNext_le s

theorem popT_lt (s : LexS) (h : (peekT s).kind ≠ .eof) :
    (popT s).2.rest.length < s.rest.length :=
  readNext_lt s h

theorem popT_fst (s : LexS) : (popT s).1 = peekT s := rfl

theorem parse_text_node_spec (s : LexS) (b : TreeBuilder)
    (h : (peekT s).kind = .text) :
    ∃ t, Effect s (parse_text_node s b).1 b (parse_text_node s b).2 [t] [] ∧
      isBodyKind t = true ∧ allInnerWf t = true ∧ strongBody t = true ∧
      (parse_text_node s b).1.rest.length < s.rest.length := by
  have hne : (popT s).1.kind ≠ .eof := by
    show (peekT s).kind ≠ .eof
    rw [h]; intro hk; cases hk
  refine ⟨.mk (.textNode (popT s).1.text) (popT s).1.span.start
    (popT s).1.span.stop [], ?_, rfl, rfl, by simp [strongBody, UTree.kind],
    readNext_lt s hne⟩
  simp only [parse_text_node]
  have hcp := complete_push ((b.open_ (.textNode (popT s).1.text)
      (popT s).1.span.start)) [] (.textNode (popT s).1.text)
    (popT s).1.span.start (popT s).1.span.stop b.wip (by
      simp [TreeBuilder.open_])
  rw [hcp]
  refine ⟨readNext_input s, readNext_le s, by simp [TreeBuilder.open_],
    by simp [TreeBuilder.open_], by simp [TreeBuilder.open_],
    by simp [TreeBuilder.open_]⟩

theorem parse_attr_rest_spec (s : LexS) (b : TreeBuilder) (nmT : UTree)
    (ast : Nat) (w : List BuilderItem)
    (hw : b.wip = .complete nmT :: .inProgress .attr ast :: w) :
    ∃ stop chl Δ,
      (parse_attr_rest s b).1.input = s.input ∧
      (parse_attr_rest s b).1.rest.length ≤ s.rest.length ∧
      (parse_attr_rest s b).2.wip =
        .complete (.mk .attr ast stop (nmT :: chl)) :: w ∧
      (parse_attr_rest s b).2.errors = b.errors ++ Δ ∧
      (parse_attr_rest s b).2.panicked = b.panicked ∧
      (parse_attr_rest s b).2.fuelOut = b.fuelOut ∧
      (chl = [] ∨ ∃ v cst csp, chl = [.mk (.attrVal v) cst csp []]) ∧
      (Δ = [] → ∃ v cst csp, chl = [.mk (.attrVal v) cst csp []]) := by
  obtain ⟨wipb, errsb, pb, fb⟩ := b
  simp only at hw
  subst hw
  simp only [parse_attr_rest]
  split
  case h_1 heq =>
    rw [if_neg (by rw [heq]; intro hk; cases hk)]
    refine ⟨(peekT s).span.stop,
      [.mk (.attrVal (popT s).1.text) (popT s).1.span.start
        (popT s).1.span.stop []], [],
      readNext_input s, readNext_le s, ?_, ?_, ?_, ?_,
      Or.inr ⟨_, _, _, rfl⟩, fun _ => ⟨_, _, _, rfl⟩⟩
    all_goals simp [TreeBuilder.open_, TreeBuilder.complete, completeAux]
  case h_2 heq =>
    rw [if_pos heq]
    refine ⟨(peekT s).span.stop,
      [.mk (.attrVal (popT s).1.text) (popT s).1.span.start
        (popT s).1.span.stop []],
      [⟨"unterminated attribute value".data,
        (peekT s).span.start, (peekT s).span.stop⟩],
      readNext_input s, readNext_le s, ?_, ?_, ?_, ?_,
      Or.inr ⟨_, _, _, rfl⟩, fun hΔ => by cases hΔ⟩
    all_goals simp [TreeBuilder.open_, TreeBuilder.complete, completeAux,
      TreeBuilder.add_error]
  case h_3 =>
    refine ⟨(peekT s).span.start, [],
      [⟨"expected attribute value".data,
        (peekT s).span.start, (peekT s).span.stop⟩],
      rfl, Nat.le_refl _, ?_, ?_, ?_, ?_,
      Or.inl rfl, fun hΔ => by cases hΔ⟩
    all_goals simp [TreeBuilder.complete, completeAux, TreeBuilder.add_error]

theorem parse_attr_spec (s : LexS) (b : TreeBuilder)
    (h : (peekT s).kind = .name) :
    ∃ t Δ, Effect s (parse_attr s b).1 b (parse_attr s b).2 [t] Δ ∧
      (parse_attr s b).1.rest.length < s.rest.length ∧
      t.kind = .attr ∧ allInnerWf t = true ∧
      (Δ = [] → strongAttr t = true) := by
  have hlt : (popT s).2.rest.length < s.rest.length :=
    readNext_lt s (by rw [show (readNext s).1 = peekT s from rfl, h]; intro hk; cases hk)
  have hin : (popT s).2.input = s.input := readNext_input s
  obtain ⟨wipb, errsb, pb, fb⟩ := b
  simp only [parse_attr]
  split
  case h_1 heq =>
    -- Equals arm
    obtain ⟨stop, chl, Δ, r1, r2, r3, r4, r5, r6, r7, r8⟩ :=
      parse_attr_rest_spec (popT (popT s).2).2
        (((TreeBuilder.mk wipb errsb pb fb).open_ .attr
            (popT s).1.span.start).open_
              (.attrName (popT s).1.text) (popT s).1.span.start
          |>.complete (popT s).1.span.stop)
        (.mk (.attrName (popT s).1.text) (popT s).1.span.start
          (popT s).1.span.stop [])
        (popT s).1.span.start wipb
        (by simp [TreeBuilder.open_, TreeBuilder.complete, completeAux])
    refine ⟨.mk .attr (popT s).1.span.start stop
      (.mk (.attrName (popT s).1.text) (popT s).1.span.start
        (popT s).1.span.stop [] :: chl), Δ, ?_, ?_, rfl, ?_, ?_⟩
    · refine ⟨?_, ?_, ?_, ?_, ?_, ?_⟩
      · rw [r1, popT_input, popT_input]
      · calc _ ≤ (popT (popT s).2).2.rest.length := r2
          _ ≤ (popT s).2.rest.length := popT_le _
          _ ≤ s.rest.length := le_of_lt hlt
      · rw [r3]; simp
      · rw [r4]; simp [TreeBuilder.open_, TreeBuilder.complete, completeAux]
      · rw [r5]; simp [TreeBuilder.open_, TreeBuilder.complete, completeAux]
      · rw [r6]; simp [TreeBuilder.open_, TreeBuilder.complete, completeAux]
    · calc _ ≤ (popT (popT s).2).2.rest.length := r2
        _ ≤ (popT s).2.rest.length := popT_le _
        _ < s.rest.length := hlt
    · rcases r7 with hc | ⟨v, cst, csp, hc⟩ <;> subst hc <;>
        simp [allInnerWf, allInnerWfList]
    · intro hΔ
      obtain ⟨v, cst, csp, hc⟩ := r8 hΔ
      subst hc
      simp [strongAttr, UTree.kind]
  case h_2 heq | h_3 heq =>
    obtain ⟨stop, chl, Δ, r1, r2, r3, r4, r5, r6, r7, r8⟩ :=
      parse_attr_rest_spec (popT s).2
        ((((TreeBuilder.mk wipb errsb pb fb).open_ .attr
            (popT s).1.span.start).open_
              (.attrName (popT s).1.text) (popT s).1.span.start
          |>.complete (popT s).1.span.stop).add_error
            ⟨"expected '='".data, (peekT (popT s).2).span.start,
              (peekT (popT s).2).span.stop⟩)
        (.mk (.attrName (popT s).1.text) (popT s).1.span.start
          (popT s).1.span.stop [])
        (popT s).1.span.start wipb
        (by simp [TreeBuilder.open_, TreeBuilder.complete, completeAux,
          TreeBuilder.add_error])
    refine ⟨.mk .attr (popT s).1.span.start stop
      (.mk (.attrName (popT s).1.text) (popT s).1.span.start
        (popT s).1.span.stop [] :: chl),
      ⟨"expected '='".data, (peekT (popT s).2).span.start,
        (peekT (popT s).2).span.stop⟩ :: Δ, ?_, ?_, rfl, ?_, ?_⟩
    · refine ⟨?_, ?_, ?_, ?_, ?_, ?_⟩
      · rw [r1, popT_input]
      · calc _ ≤ (popT s).2.rest.length := r2
          _ ≤ s.rest.length := le_of_lt hlt
      · rw [r3]; simp
      · rw [r4]
        simp [TreeBuilder.open_, TreeBuilder.complete, completeAux,
          TreeBuilder.add_error]
      · rw [r5]
        simp [TreeBuilder.open_, TreeBuilder.complete, completeAux,
          TreeBuilder.add_error]
      · rw [r6]
        simp [TreeBuilder.open_, TreeBuilder.complete, completeAux,
          TreeBuilder.add_error]
    · calc _ ≤ (popT s).2.rest.length := r2
        _ < s.rest.length := hlt
    · rcases r7 with hc | ⟨v, cst, csp, hc⟩ <;> subst hc <;>
        simp [allInnerWf, allInnerWfList]
    · intro hΔ
      cases hΔ
  case h_4 =>
    refine ⟨.mk .attr (popT s).1.span.start (peekT (popT s).2).span.start
      [.mk (.attrName (popT s).1.text) (popT s).1.span.start
        (popT s).1.span.stop []],
      [⟨"expected '=', followed by attribute value".data,
        (peekT (popT s).2).span.start, (peekT (popT s).2).span.stop⟩],
      ⟨hin, le_of_lt hlt, ?_, ?_, ?_, ?_⟩, hlt, rfl, ?_, ?_⟩
    · simp [TreeBuilder.open_, TreeBuilder.complete, completeAux,
        TreeBuilder.add_error]
    · simp [TreeBuilder.open_, TreeBuilder.complete, completeAux,
        TreeBuilder.add_error]
    · simp [TreeBuilder.open_, TreeBuilder.complete, completeAux,
        TreeBuilder.add_error]
    · simp [TreeBuilder.open_, TreeBuilder.complete, completeAux,
        TreeBuilder.add_error]
    · simp [allInnerWf, allInnerWfList]
    · intro hΔ
      cases hΔ

theorem parse_attrs_loop_spec (fuel : Nat) (s : LexS) (b : TreeBuilder)
    (hfuel : s.rest.length + 1 ≤ fuel) :
    ∃ ts Δ, Effect s (parse_attrs_loop fuel s b).1 b
        (parse_attrs_loop fuel s b).2 ts Δ ∧
      (∀ t ∈ ts, t.kind = .attr ∧ allInnerWf t = true) ∧
      (Δ = [] → ∀ t ∈ ts, strongAttr t = true) := by
  induction fuel generalizing s b with
  | zero => omega
  | succ fuel ih =>
    simp only [parse_attrs_loop]
    by_cases hk : (peekT s).kind = .name
    · rw [if_pos hk]
      obtain ⟨t, Δ₁, he₁, hlt₁, hkind, hwf, hstrong⟩ := parse_attr_spec s b hk
      obtain ⟨ts₂, Δ₂, he₂, hall₂, hstrong₂⟩ :=
        ih (parse_attr s b).1 (parse_attr s b).2 (by omega)
      refine ⟨t :: ts₂, Δ₁ ++ Δ₂, ?_, ?_, ?_⟩
      · have := he₁.trans he₂
        simpa using this
      · intro u hu
        rcases List.mem_cons.mp hu with hu | hu
        · subst hu; exact ⟨hkind, hwf⟩
        · exact hall₂ u hu
      · intro hΔ
        rw [List.append_eq_nil] at hΔ
        intro u hu
        rcases List.mem_cons.mp hu with hu | hu
        · subst hu; exact hstrong hΔ.1
        · exact hstrong₂ hΔ.2 u hu
    · rw [if_neg hk]
      exact ⟨[], [], Effect.refl s b, by simp, by simp⟩

theorem parse_attrs_spec (fuel : Nat) (s : LexS) (b : TreeBuilder)
    (hfuel : s.rest.length + 1 ≤ fuel) :
    ∃ ast astop acs Δ,
      Effect s (parse_attrs fuel s b).1 b (parse_attrs fuel s b).2
        [.mk .attrs ast astop acs] Δ ∧
      allInnerWfList acs = true ∧
      (Δ = [] → strongAttrList acs = true) := by
  simp only [parse_attrs]
  obtain ⟨ts, Δ, ⟨he1, he2, he3, he4, he5, he6⟩, hall, hstrong⟩ :=
    parse_attrs_loop_spec fuel s (b.open_ .attrs (peekT s).span.start) hfuel
  have hcp := complete_push (parse_attrs_loop fuel s
      (b.open_ .attrs (peekT s).span.start)).2 ts .attrs
    (peekT s).span.start
    (peekT (parse_attrs_loop fuel s
      (b.open_ .attrs (peekT s).span.start)).1).span.start b.wip
    (by rw [he3]; simp [TreeBuilder.open_])
  refine ⟨(peekT s).span.start,
    (peekT (parse_attrs_loop fuel s
      (b.open_ .attrs (peekT s).span.start)).1).span.start, ts, Δ,
    ⟨he1, he2, ?_, ?_, ?_, ?_⟩,
    allInnerWfList_of_forall (fun t ht => (hall t ht).2),
    fun hΔ => strongAttrList_of_forall (hstrong hΔ)⟩
  · rw [hcp]; simp
  · rw [hcp]
    show (parse_attrs_loop fuel s _).2.errors = _
    rw [he4]
    simp [TreeBuilder.open_]
  · rw [hcp]
    show (parse_attrs_loop fuel s _).2.panicked = _
    rw [he5]
    simp [TreeBuilder.open_]
  · rw [hcp]
    show (parse_attrs_loop fuel s _).2.fuelOut = _
    rw [he6]
    simp [TreeBuilder.open_]

theorem parse_open_tag_rest_spec (fuel : Nat) (tag_name : Option (List Char))
    (s : LexS) (b : TreeBuilder) (pre : List UTree) (otst : Nat)
    (w : List BuilderItem)
    (hw : b.wip = pre.reverse.map BuilderItem.complete ++
      .inProgress .openTag otst :: w)
    (hfuel : s.rest.length + 1 ≤ fuel) :
    ∃ stop ast astop acs Δ,
      (parse_open_tag_rest fuel tag_name s b).1 = tag_name ∧
      (parse_open_tag_rest fuel tag_name s b).2.1.input = s.input ∧
      (parse_open_tag_rest fuel tag_name s b).2.1.rest.length ≤
        s.rest.length ∧
      (parse_open_tag_rest fuel tag_name s b).2.2.wip =
        .complete (.mk .openTag otst stop
          (pre ++ [.mk .attrs ast astop acs])) :: w ∧
      (parse_open_tag_rest fuel tag_name s b).2.2.errors = b.errors ++ Δ ∧
      (parse_open_tag_rest fuel tag_name s b).2.2.panicked = b.panicked ∧
      (parse_open_tag_rest fuel tag_name s b).2.2.fuelOut = b.fuelOut ∧
      allInnerWfList acs = true ∧
      (Δ = [] → strongAttrList acs = true) := by
  obtain ⟨ast, astop, acs, Δ, ⟨he1, he2, he3, he4, he5, he6⟩, hacs, hstrong⟩ :=
    parse_attrs_spec fuel s b hfuel
  simp only [parse_open_tag_rest]
  split
  case h_1 heq =>
    -- RAngle
    have hcp := complete_push (parse_attrs fuel s b).2
      (pre ++ [.mk .attrs ast astop acs]) .openTag otst
      (peekT (parse_attrs fuel s b).1).span.stop w
      (by rw [he3, hw]; simp)
    rw [hcp]
    exact ⟨(peekT (parse_attrs fuel s b).1).span.stop, ast, astop, acs, Δ,
      rfl, by rw [popT_input, he1], le_trans (popT_le _) he2, rfl,
      by rw [he4], by rw [he5], by rw [he6], hacs, hstrong⟩
  case h_2 =>
    have hcp := complete_push ((parse_attrs fuel s b).2.add_error
        ⟨"expected '>'".data, (peekT (parse_attrs fuel s b).1).span.start,
          (peekT (parse_attrs fuel s b).1).span.stop⟩)
      (pre ++ [.mk .attrs ast astop acs]) .openTag otst
      (peekT (parse_attrs fuel s b).1).span.start w
      (by simp only [TreeBuilder.add_error]; rw [he3, hw]; simp)
    rw [hcp]
    refine ⟨(peekT (parse_attrs fuel s b).1).span.start, ast, astop, acs,
      Δ ++ [⟨"expected '>'".data,
        (peekT (parse_attrs fuel s b).1).span.start,
        (peekT (parse_attrs fuel s b).1).span.stop⟩],
      rfl, he1, he2, rfl, ?_, ?_, ?_, hacs, fun hΔ => ?_⟩
    · simp only [TreeBuilder.add_error]
      rw [he4]
      simp
    · simp only [TreeBuilder.add_error]
      rw [he5]
    · simp only [TreeBuilder.add_error]
      rw [he6]
    · rw [List.append_eq_nil] at hΔ
      exact absurd hΔ.2 (by simp)

theorem parse_open_tag_spec (fuel : Nat) (s : LexS) (b : TreeBuilder)
    (hne : (peekT s).kind ≠ .eof) (hfuel : s.rest.length + 1 ≤ fuel) :
    ∃ t Δ,
      Effect s (parse_open_tag fuel s b).2.1 b (parse_open_tag fuel s b).2.2
        [t] Δ ∧
      (parse_open_tag fuel s b).2.1.rest.length < s.rest.length ∧
      t.kind = .openTag ∧ allInnerWf t = true ∧
      (Δ = [] → strongOpen t = true ∧
        ∃ nm, (parse_open_tag fuel s b).1 = some nm) := by
  have hlt : (popT s).2.rest.length < s.rest.length := popT_lt s hne
  have hin : (popT s).2.input = s.input := popT_input s
  simp only [parse_open_tag]
  split
  case h_1 heq =>
    -- Name
    have hlt₂ : (popT (popT s).2).2.rest.length < (popT s).2.rest.length :=
      popT_lt _ (by rw [heq]; intro hk; cases hk)
    obtain ⟨stop, ast, astop, acs, Δ, q1, q2, q3, q4, q5, q6, q7, q8, q9⟩ :=
      parse_open_tag_rest_spec fuel (some (popT (popT s).2).1.text)
        (popT (popT s).2).2
        ((((b.open_ .openTag (popT s).1.span.start).open_
            (.tagName (popT (popT s).2).1.text)
            (popT (popT s).2).1.span.start).complete
          (popT (popT s).2).1.span.stop))
        [.mk (.tagName (popT (popT s).2).1.text)
          (popT (popT s).2).1.span.start (popT (popT s).2).1.span.stop []]
        (popT s).1.span.start b.wip
        (by simp [TreeBuilder.open_, TreeBuilder.complete, completeAux])
        (by omega)
    refine ⟨.mk .openTag (popT s).1.span.start stop
      ([.mk (.tagName (popT (popT s).2).1.text)
          (popT (popT s).2).1.span.start (popT (popT s).2).1.span.stop []]
        ++ [.mk .attrs ast astop acs]), Δ,
      ⟨?_, ?_, ?_, ?_, ?_, ?_⟩, ?_, rfl, ?_,
      fun hΔ => ⟨?_, (popT (popT s).2).1.text, ?_⟩⟩
    · rw [q2, popT_input, popT_input]
    · exact le_trans q3 (le_trans (le_of_lt hlt₂) (le_of_lt hlt))
    · rw [q4]; simp
    · rw [q5]; simp [TreeBuilder.open_, TreeBuilder.complete, completeAux]
    · rw [q6]; simp [TreeBuilder.open_, TreeBuilder.complete, completeAux]
    · rw [q7]; simp [TreeBuilder.open_, TreeBuilder.complete, completeAux]
    · exact lt_of_le_of_lt q3 (lt_trans hlt₂ hlt)
    · simp [allInnerWf, allInnerWfList, q8]
    · simp only [List.cons_append, List.nil_append, strongOpen,
        Bool.and_eq_true]
      exact ⟨rfl, q9 hΔ⟩
    · rw [q1]
  case h_2 heq | h_3 heq | h_4 heq =>
    obtain ⟨stop, ast, astop, acs, Δ, q1, q2, q3, q4, q5, q6, q7, q8, q9⟩ :=
      parse_open_tag_rest_spec fuel none (popT s).2
        ((b.open_ .openTag (popT s).1.span.start).add_error
          ⟨"expected tag name".data, (peekT (popT s).2).span.start,
            (peekT (popT s).2).span.stop⟩)
        [] (popT s).1.span.start b.wip
        (by simp [TreeBuilder.open_, TreeBuilder.add_error])
        (by omega)
    refine ⟨.mk .openTag (popT s).1.span.start stop
      ([] ++ [.mk .attrs ast astop acs]),
      ⟨"expected tag name".data, (peekT (popT s).2).span.start,
        (peekT (popT s).2).span.stop⟩ :: Δ,
      ⟨?_, ?_, ?_, ?_, ?_, ?_⟩, ?_, rfl, ?_, fun hΔ => by cases hΔ⟩
    · rw [q2, popT_input]
    · exact le_trans q3 (le_of_lt hlt)
    · rw [q4]; simp
    · rw [q5]; simp [TreeBuilder.open_, TreeBuilder.add_error]
    · rw [q6]; simp [TreeBuilder.open_, TreeBuilder.add_error]
    · rw [q7]; simp [TreeBuilder.open_, TreeBuilder.add_error]
    · exact lt_of_le_of_lt q3 hlt
    · simp [allInnerWf, allInnerWfList, q8]
  case h_5 =>
    refine ⟨.mk .openTag (popT s).1.span.start
        (peekT (popT s).2).span.start [],
      [⟨"expected tag name, followed by attributes and '>'".data,
        (peekT (popT s).2).span.start, (peekT (popT s).2).span.stop⟩],
      ⟨hin, le_of_lt hlt, ?_, ?_, ?_, ?_⟩, hlt, rfl, ?_,
      fun hΔ => by cases hΔ⟩
    · simp [TreeBuilder.open_, TreeBuilder.complete, completeAux,
        TreeBuilder.add_error]
    · simp [TreeBuilder.open_, TreeBuilder.complete, completeAux,
        TreeBuilder.add_error]
    · simp [TreeBuilder.open_, TreeBuilder.complete, completeAux,
        TreeBuilder.add_error]
    · simp [TreeBuilder.open_, TreeBuilder.complete, completeAux,
        TreeBuilder.add_error]
    · simp [allInnerWf, allInnerWfList]

theorem parse_close_tag_rest_spec (tag_info : Option CloseTagInfo)
    (s : LexS) (b : TreeBuilder) (pre : List UTree) (ctst : Nat)
    (w : List BuilderItem)
    (hw : b.wip = pre.reverse.map BuilderItem.complete ++
      .inProgress .closeTag ctst :: w) :
    ∃ stop Δ,
      (parse_close_tag_rest tag_info s b).1 = tag_info ∧
      (parse_close_tag_rest tag_info s b).2.1.input = s.input ∧
      (parse_close_tag_rest tag_info s b).2.1.rest.length ≤ s.rest.length ∧
      (parse_close_tag_rest tag_info s b).2.2.wip =
        .complete (.mk .closeTag ctst stop pre) :: w ∧
      (parse_close_tag_rest tag_info s b).2.2.errors = b.errors ++ Δ ∧
      (parse_close_tag_rest tag_info s b).2.2.panicked = b.panicked ∧
      (parse_close_tag_rest tag_info s b).2.2.fuelOut = b.fuelOut := by
  simp only [parse_close_tag_rest]
  split
  case h_1 heq =>
    have hcp := complete_push b pre .closeTag ctst
      (peekT s).span.stop w hw
    rw [hcp]
    exact ⟨(peekT s).span.stop, [], rfl, popT_input s, popT_le s, rfl,
      by simp, rfl, rfl⟩
  case h_2 =>
    have hcp := complete_push (b.add_error
        ⟨"expected '>'".data, (peekT s).span.start, (peekT s).span.stop⟩)
      pre .closeTag ctst (peekT s).span.start w
      (by simp [TreeBuilder.add_error, hw])
    rw [hcp]
    exact ⟨(peekT s).span.start,
      [⟨"expected '>'".data, (peekT s).span.start, (peekT s).span.stop⟩],
      rfl, rfl, Nat.le_refl _, rfl, by simp [TreeBuilder.add_error],
      by simp [TreeBuilder.add_error], by simp [TreeBuilder.add_error]⟩

theorem parse_close_tag_main_spec (s : LexS) (b : TreeBuilder) (ctst : Nat)
    (w : List BuilderItem)
    (hw : b.wip = .inProgress .closeTag ctst :: w) :
    ∃ t Δ,
      (parse_close_tag_main s b).2.1.input = s.input ∧
      (parse_close_tag_main s b).2.1.rest.length ≤ s.rest.length ∧
      (parse_close_tag_main s b).2.2.wip = .complete t :: w ∧
      (parse_close_tag_main s b).2.2.errors = b.errors ++ Δ ∧
      (parse_close_tag_main s b).2.2.panicked = b.panicked ∧
      (parse_close_tag_main s b).2.2.fuelOut = b.fuelOut ∧
      t.kind = .closeTag ∧ allInnerWf t = true := by
  simp only [parse_close_tag_main]
  split
  case h_1 heq =>
    obtain ⟨stop, Δ, q1, q2, q3, q4, q5, q6, q7⟩ :=
      parse_close_tag_rest_spec
        (some ⟨(popT s).1.text, (popT s).1.span.start, (popT s).1.span.stop⟩)
        (popT s).2
        ((b.open_ (.tagName (popT s).1.text) (popT s).1.span.start).complete
          (popT s).1.span.stop)
        [.mk (.tagName (popT s).1.text) (popT s).1.span.start
          (popT s).1.span.stop []]
        ctst w
        (by simp [TreeBuilder.open_, TreeBuilder.complete, completeAux, hw])
    refine ⟨.mk .closeTag ctst stop
      [.mk (.tagName (popT s).1.text) (popT s).1.span.start
        (popT s).1.span.stop []], Δ,
      by rw [q2, popT_input], le_trans q3 (popT_le s), q4, ?_, ?_, ?_,
      rfl, by simp [allInnerWf, allInnerWfList]⟩
    · rw [q5]; simp [TreeBuilder.open_, TreeBuilder.complete, completeAux]
    · rw [q6]; simp [TreeBuilder.open_, TreeBuilder.complete, completeAux]
    · rw [q7]; simp [TreeBuilder.open_, TreeBuilder.complete, completeAux]
  case h_2 heq =>
    obtain ⟨stop, Δ, q1, q2, q3, q4, q5, q6, q7⟩ :=
      parse_close_tag_rest_spec none s
        (b.add_error ⟨"expected tag name".data, (peekT s).span.start,
          (peekT s).span.stop⟩)
        [] ctst w (by simp [TreeBuilder.add_error, hw])
    refine ⟨.mk .closeTag ctst stop [],
      ⟨"expected tag name".data, (peekT s).span.start,
        (peekT s).span.stop⟩ :: Δ, q2, q3, q4, ?_, ?_, ?_,
      rfl, by simp [allInnerWf, allInnerWfList]⟩
    · rw [q5]; simp [TreeBuilder.add_error]
    · rw [q6]; simp [TreeBuilder.add_error]
    · rw [q7]; simp [TreeBuilder.add_error]
  case h_3 =>
    have hcp := complete_push (b.add_error
        ⟨"expected tag name, followed by '>'".data, (peekT s).span.start,
          (peekT s).span.stop⟩)
      [] .closeTag ctst (peekT s).span.start w
      (by simp [TreeBuilder.add_error, hw])
    rw [hcp]
    exact ⟨.mk .closeTag ctst (peekT s).span.start [],
      [⟨"expected tag name, followed by '>'".data, (peekT s).span.start,
        (peekT s).span.stop⟩],
      rfl, Nat.le_refl _, rfl, by simp [TreeBuilder.add_error],
      by simp [TreeBuilder.add_error], by simp [TreeBuilder.add_error],
      rfl, by simp [allInnerWf, allInnerWfList]⟩

theorem parse_close_tag_spec (s : LexS) (b : TreeBuilder) :
    ∃ t Δ, Effect s (parse_close_tag s b).2.1 b (parse_close_tag s b).2.2
        [t] Δ ∧
      t.kind = .closeTag ∧ allInnerWf t = true := by
  simp only [parse_close_tag]
  split
  case isTrue ho =>
    obtain ⟨t, Δ, q1, q2, q3, q4, q5, q6, q7, q8⟩ :=
      parse_close_tag_main_spec (popT (popT s).2).2
        ((b.open_ .closeTag (popT s).1.span.start).add_error
          ⟨"orphaned hashes".data, (popT (popT s).2).1.span.start,
            (popT (popT s).2).1.span.stop⟩)
        (popT s).1.span.start b.wip
        (by simp [TreeBuilder.open_, TreeBuilder.add_error])
    refine ⟨t, ⟨"orphaned hashes".data, (popT (popT s).2).1.span.start,
        (popT (popT s).2).1.span.stop⟩ :: Δ,
      ⟨?_, ?_, ?_, ?_, ?_, ?_⟩, q7, q8⟩
    · rw [q1, popT_input, popT_input]
    · exact le_trans q2 (le_trans (popT_le _) (popT_le _))
    · rw [q3]; simp
    · rw [q4]; simp [TreeBuilder.open_, TreeBuilder.add_error]
    · rw [q5]; simp [TreeBuilder.open_, TreeBuilder.add_error]
    · rw [q6]; simp [TreeBuilder.open_, TreeBuilder.add_error]
  case isFalse =>
    obtain ⟨t, Δ, q1, q2, q3, q4, q5, q6, q7, q8⟩ :=
      parse_close_tag_main_spec (popT s).2
        (b.open_ .closeTag (popT s).1.span.start)
        (popT s).1.span.start b.wip (by simp [TreeBuilder.open_])
    refine ⟨t, Δ, ⟨?_, ?_, ?_, ?_, ?_, ?_⟩, q7, q8⟩
    · rw [q1, popT_input]
    · exact le_trans q2 (popT_le _)
    · rw [q3]; simp
    · rw [q4]; simp [TreeBuilder.open_]
    · rw [q5]; simp [TreeBuilder.open_]
    · rw [q6]; simp [TreeBuilder.open_]

/-- The master invariant of the mutual parser recursion, proved by induction
on fuel: at sufficient fuel, `parse_nodes` pushes a list of well-formed body
nodes and `parse_inner_node` pushes exactly one well-formed `InnerNode`,
both strictly consuming input, preserving the panic/fuel flags, and
accumulating errors; error-free runs produce strongly-shaped trees. -/
theorem parse_master (fuel : Nat) :
    (∀ s b, 2 * s.rest.length + 2 ≤ fuel →
      ∃ ts Δ, Effect s (parse_nodes fuel s b).1 b (parse_nodes fuel s b).2
          ts Δ ∧
        (∀ t ∈ ts, isBodyKind t = true ∧ allInnerWf t = true) ∧
        (Δ = [] → ∀ t ∈ ts, strongBody t = true)) ∧
    (∀ s b, (peekT s).kind = .lAngle → 2 * s.rest.length + 1 ≤ fuel →
      ∃ t Δ, Effect s (parse_inner_node fuel s b).1 b
          (parse_inner_node fuel s b).2 [t] Δ ∧
        (parse_inner_node fuel s b).1.rest.length < s.rest.length ∧
        t.kind = .innerNode ∧ isBodyKind t = true ∧ allInnerWf t = true ∧
        (Δ = [] → strongBody t = true)) := by
  induction fuel with
  | zero => exact ⟨fun s b h => by omega, fun s b hq h => by omega⟩
  | succ fuel ih =>
    constructor
    · -- parse_nodes
      intro s b hfuel
      simp only [parse_nodes]
      split
      case h_1 heq | h_2 heq =>
        exact ⟨[], [], Effect.refl s b, by simp, by simp⟩
      case h_3 heq =>
        -- LAngle
        obtain ⟨t, Δ₁, he₁, hlt₁, hk₁, hbk₁, hwf₁, hst₁⟩ :=
          ih.2 s b heq (by omega)
        obtain ⟨ts₂, Δ₂, he₂, hall₂, hst₂⟩ :=
          ih.1 (parse_inner_node fuel s b).1 (parse_inner_node fuel s b).2
            (by have := hlt₁; omega)
        refine ⟨t :: ts₂, Δ₁ ++ Δ₂, ?_, ?_, ?_⟩
        · have := he₁.trans he₂
          simpa using this
        · intro u hu
          rcases List.mem_cons.mp hu with hu | hu
          · subst hu; exact ⟨hbk₁, hwf₁⟩
          · exact hall₂ u hu
        · intro hΔ
          rw [List.append_eq_nil] at hΔ
          intro u hu
          rcases List.mem_cons.mp hu with hu | hu
          · subst hu; exact hst₁ hΔ.1
          · exact hst₂ hΔ.2 u hu
      case h_4 heq =>
        -- Text
        obtain ⟨t, he₁, hbk₁, hwf₁, hst₁, hlt₁⟩ := parse_text_node_spec s b heq
        obtain ⟨ts₂, Δ₂, he₂, hall₂, hst₂⟩ :=
          ih.1 (parse_text_node s b).1 (parse_text_node s b).2
            (by have := hlt₁; omega)
        refine ⟨t :: ts₂, Δ₂, ?_, ?_, ?_⟩
        · have := he₁.trans he₂
          simpa using this
        · intro u hu
          rcases List.mem_cons.mp hu with hu | hu
          · subst hu; exact ⟨hbk₁, hwf₁⟩
          · exact hall₂ u hu
        · intro hΔ
          subst hΔ
          intro u hu
          rcases List.mem_cons.mp hu with hu | hu
          · subst hu; exact hst₁
          · exact hst₂ rfl u hu
      case h_5 =>
        rename_i x hne1 hne2 hne3 hne4
        have hlt₁ : (popT s).2.rest.length < s.rest.length :=
          popT_lt s (fun h => hne2 h)
        have hpe : Effect s (popT s).2 b
            (b.add_error ⟨msgUnexpectedNode (peekT s).text,
              (peekT s).span.start, (peekT s).span.stop⟩) [] _ :=
          (Effect.pop s b).trans (Effect.add_error (popT s).2 b _)
        obtain ⟨ts₂, Δ₂, he₂, hall₂, hst₂⟩ :=
          ih.1 (popT s).2 (b.add_error ⟨msgUnexpectedNode (peekT s).text,
            (peekT s).span.start, (peekT s).span.stop⟩)
            (by have := hlt₁; omega)
        refine ⟨ts₂, [⟨msgUnexpectedNode (peekT s).text, (peekT s).span.start,
          (peekT s).span.stop⟩] ++ Δ₂, ?_, hall₂, ?_⟩
        · have := hpe.trans he₂
          simpa using this
        · intro hΔ
          rw [List.append_eq_nil] at hΔ
          cases hΔ.1
    · -- parse_inner_node
      intro s b hpeek hfuel
      simp only [parse_inner_node]
      obtain ⟨openT, Δ₁, ⟨o1, o2, o3, o4, o5, o6⟩, olt, okind, owf, ostrong⟩ :=
        parse_open_tag_spec (fuel + 1) s
          (b.open_ .innerNode (peekT s).span.start)
          (by rw [hpeek]; intro hk; cases hk) (by omega)
      rcases hR1 : parse_open_tag (fuel + 1) s
          (b.open_ .innerNode (peekT s).span.start) with ⟨name1, s₁, b₁⟩
      rw [hR1] at o1 o2 o3 o4 o5 o6 olt ostrong
      simp only [] at o1 o2 o3 o4 o5 o6 olt ostrong
      obtain ⟨ts, Δ₂, ⟨n1, n2, n3, n4, n5, n6⟩, nall, nstrong⟩ :=
        ih.1 s₁ b₁ (by omega)
      rcases hR2 : parse_nodes fuel s₁ b₁ with ⟨s₂, b₂⟩
      rw [hR2] at n1 n2 n3 n4 n5 n6
      simp only [] at n1 n2 n3 n4 n5 n6
      have hico : innerChildrenOk (openT :: ts) = true := by
        simp [innerChildrenOk, okind,
          innerRestOk_bodies (fun t ht => (nall t ht).1)]
      have hwfl : allInnerWfList (openT :: ts) = true := by
        simp [allInnerWfList, owf,
          allInnerWfList_of_forall (fun t ht => (nall t ht).2)]
      split
      case isTrue heof =>
        have hcp := complete_push b₂ (openT :: ts) .innerNode
          (peekT s).span.start (peekT s₂).span.start b.wip
          (by rw [n3, o3]; simp [TreeBuilder.open_])
        rw [hcp]
        refine ⟨.mk .innerNode (peekT s).span.start (peekT s₂).span.start
          (openT :: ts),
          Δ₁ ++ Δ₂ ++ [⟨"expected closing tag, but found EOF".data,
            (peekT s₂).span.start, (peekT s₂).span.stop⟩],
          ⟨?_, ?_, ?_, ?_, ?_, ?_⟩, ?_, rfl, rfl, ?_, ?_⟩
        · rw [n1, o1]
        · exact le_trans n2 (le_of_lt olt)
        · simp [TreeBuilder.add_error]
        · simp only [TreeBuilder.add_error]
          rw [n4, o4]
          simp [TreeBuilder.open_]
        · simp only [TreeBuilder.add_error]
          rw [n5, o5]
          simp [TreeBuilder.open_]
        · simp only [TreeBuilder.add_error]
          rw [n6, o6]
          simp [TreeBuilder.open_]
        · exact lt_of_le_of_lt n2 olt
        · simp [allInnerWf, hico, hwfl]
        · intro hΔ
          exfalso
          rcases List.append_eq_nil.mp hΔ with ⟨-, h2⟩
          cases h2
      case isFalse hne =>
        obtain ⟨closeT, Δ₃, ⟨c1, c2, c3, c4, c5, c6⟩, ckind, cwf⟩ :=
          parse_close_tag_spec s₂ b₂
        rcases hR3 : parse_close_tag s₂ b₂ with ⟨info1, s₃, b₃⟩
        rw [hR3] at c1 c2 c3 c4 c5 c6
        simp only [] at c1 c2 c3 c4 c5 c6
        have hcp := complete_push b₃ (openT :: (ts ++ [closeT])) .innerNode
          (peekT s).span.start (peekT s₃).span.start b.wip
          (by rw [c3, n3, o3]; simp [TreeBuilder.open_])
        have hico₂ : innerChildrenOk (openT :: (ts ++ [closeT])) = true := by
          simp [innerChildrenOk, okind,
            innerRestOk_bodies_close (fun t ht => (nall t ht).1) ckind]
        have hwfl₂ : allInnerWfList (openT :: (ts ++ [closeT])) = true := by
          have hall : ∀ t ∈ ts ++ [closeT], allInnerWf t = true := by
            intro t ht
            rcases List.mem_append.mp ht with ht | ht
            · exact (nall t ht).2
            · rw [List.mem_singleton.mp ht]; exact cwf
          simp [allInnerWfList, owf, allInnerWfList_of_forall hall]
        have hin₃ : s₃.input = s.input := by rw [c1, n1, o1]
        have hlt₃ : s₃.rest.length < s.rest.length :=
          lt_of_le_of_lt c2 (lt_of_le_of_lt n2 olt)
        have hstr : Δ₁ = [] → Δ₂ = [] →
            strongBody (.mk .innerNode (peekT s).span.start
              (peekT s₃).span.start (openT :: (ts ++ [closeT]))) = true := by
          intro h1 h2
          have hso := (ostrong h1).1
          have hsr := strongRest_append (nstrong h2) ckind
          simp [strongBody, strongInner, UTree.kind, hso, hsr]
        rw [hcp]
        split
        case h_1 opened info heq1 heq2 =>
          split
          case isTrue hnee =>
            refine ⟨.mk .innerNode (peekT s).span.start
              (peekT s₃).span.start (openT :: (ts ++ [closeT])),
              Δ₁ ++ Δ₂ ++ Δ₃ ++ [⟨msgCloseMismatch opened info.name,
                info.start, info.stop⟩],
              ⟨hin₃, le_of_lt hlt₃, ?_, ?_, ?_, ?_⟩, hlt₃, rfl, rfl, ?_, ?_⟩
            · simp [TreeBuilder.add_error]
            · simp only [TreeBuilder.add_error]
              rw [c4, n4, o4]
              simp [TreeBuilder.open_]
            · simp only [TreeBuilder.add_error]
              rw [c5, n5, o5]
              simp [TreeBuilder.open_]
            · simp only [TreeBuilder.add_error]
              rw [c6, n6, o6]
              simp [TreeBuilder.open_]
            · simp [allInnerWf, hico₂, hwfl₂]
            · intro hΔ
              exfalso
              rcases List.append_eq_nil.mp hΔ with ⟨-, h2⟩
              cases h2
          case isFalse hnee =>
            refine ⟨.mk .innerNode (peekT s).span.start
              (peekT s₃).span.start (openT :: (ts ++ [closeT])),
              Δ₁ ++ Δ₂ ++ Δ₃,
              ⟨hin₃, le_of_lt hlt₃, ?_, ?_, ?_, ?_⟩, hlt₃, rfl, rfl, ?_, ?_⟩
            · simp
            · rw [c4, n4, o4]
              simp [TreeBuilder.open_]
            · rw [c5, n5, o5]
              simp [TreeBuilder.open_]
            · rw [c6, n6, o6]
              simp [TreeBuilder.open_]
            · simp [allInnerWf, hico₂, hwfl₂]
            · intro hΔ
              rcases List.append_eq_nil.mp hΔ with ⟨h12, -⟩
              rcases List.append_eq_nil.mp h12 with ⟨h1, h2⟩
              exact hstr h1 h2
        case h_2 hx1 hx2 =>
          refine ⟨.mk .innerNode (peekT s).span.start
            (peekT s₃).span.start (openT :: (ts ++ [closeT])),
            Δ₁ ++ Δ₂ ++ Δ₃,
            ⟨hin₃, le_of_lt hlt₃, ?_, ?_, ?_, ?_⟩, hlt₃, rfl, rfl, ?_, ?_⟩
          · simp
          · rw [c4, n4, o4]
            simp [TreeBuilder.open_]
          · rw [c5, n5, o5]
            simp [TreeBuilder.open_]
          · rw [c6, n6, o6]
            simp [TreeBuilder.open_]
          · simp [allInnerWf, hico₂, hwfl₂]
          · intro hΔ
            rcases List.append_eq_nil.mp hΔ with ⟨h12, -⟩
            rcases List.append_eq_nil.mp h12 with ⟨h1, h2⟩
            exact hstr h1 h2

/-- An Eof peek is the canonical Eof token at the end of input. -/
theorem readNextF_eof_token (f : Nat) (s : LexS)
    (h : (readNextF f s).1.kind = .eof) :
    (readNextF f s).1 = Token.eofAt s.input.length := by
  induction f generalizing s with
  | zero => rfl
  | succ f ih =>
    obtain ⟨inp, rest, mode⟩ := s
    cases mode with
    | outside n =>
      simp only [readNextF] at h ⊢
      by_cases hc : currentPos (⟨inp, rest, .outside n⟩ : LexS) <
          currentPos (⟨inp, read_outside_loop n rest, .inside n⟩ : LexS)
      · rw [if_pos hc] at h
        simp [Token.from_input] at h
      · rw [if_neg hc] at h ⊢
        exact ih _ h
    | inside n =>
      simp only [readNextF] at h ⊢
      split at h
      · rename_i heq
        simp [Token.eofAt, heq]
      · rename_i c cs heq
        revert h
        split
        · rename_i k rest₂ m₂ hstep
          have hk := read_inside_step_ne_eof hstep
          intro h
          exfalso
          apply hk
          revert h
          split
          · intro h
            simpa [Token.from_input] using h
          · split
            · intro h
              simpa [Token.from_input] using h
            · intro h
              simpa [Token.from_input] using h
        · intro h
          exact ih _ h

theorem peek_eof_token (s : LexS) (h : (peekT s).kind = .eof) :
    peekT s = Token.eofAt s.input.length :=
  readNextF_eof_token 3 s h

theorem parse_document_skip_spec (fuel : Nat) (s : LexS) (b : TreeBuilder)
    (hfuel : s.rest.length + 1 ≤ fuel) :
    ∃ s', (parse_document_skip fuel s b).1 = s' ∧ s'.input = s.input ∧
      s'.rest.length ≤ s.rest.length ∧
      ((parse_document_skip fuel s b = (s', b, false) ∧
          (peekT s').kind = .lAngle) ∨
        (parse_document_skip fuel s b =
            (s', (b.add_error ⟨"unexpected EOF".data, (peekT s').span.start,
              (peekT s').span.stop⟩).complete (peekT s').span.start, true) ∧
          (peekT s').kind = .eof)) := by
  induction fuel generalizing s with
  | zero => omega
  | succ fuel ih =>
    simp only [parse_document_skip]
    split
    case h_1 heq =>
      exact ⟨s, rfl, rfl, Nat.le_refl _, Or.inl ⟨rfl, heq⟩⟩
    case h_2 heq =>
      exact ⟨s, rfl, rfl, Nat.le_refl _, Or.inr ⟨rfl, heq⟩⟩
    case h_3 x hne1 hne2 =>
      have hlt : (popT s).2.rest.length < s.rest.length :=
        popT_lt s (fun hk => hne2 hk)
      obtain ⟨s', q1, q2, q3, q4⟩ := ih (popT s).2 (by omega)
      exact ⟨s', q1, by rw [q2, popT_input], le_trans q3 (le_of_lt hlt), q4⟩

theorem parse_document_drain_spec (fuel : Nat) (s : LexS)
    (hfuel : s.rest.length + 1 ≤ fuel) :
    ∃ s', parse_document_drain fuel s = (s', false) ∧
      s'.input = s.input ∧ (peekT s').kind = .eof := by
  induction fuel generalizing s with
  | zero => omega
  | succ fuel ih =>
    simp only [parse_document_drain]
    split
    case h_1 heq =>
      exact ⟨s, rfl, rfl, heq⟩
    case h_2 x hne =>
      have hlt : (popT s).2.rest.length < s.rest.length :=
        popT_lt s (fun hk => hne hk)
      obtain ⟨s', q1, q2, q3⟩ := ih (popT s).2 (by omega)
      exact ⟨s', q1, by rw [q2, popT_input], q3⟩

/-- The top-level parse invariant: on every input the builder finishes with a
single complete Document covering `[0, input length]`, no panic, no fuel
exhaustion; the Document has at most one child — exactly one well-formed
`InnerNode` unless Eof came before any `<` (then zero children and precisely
the "unexpected EOF" error); error-free parses yield the strong shape. -/
theorem parse_full (cs : List Char) :
    ∃ doc Δ, (parse cs).wip = [.complete doc] ∧ (parse cs).errors = Δ ∧
      (parse cs).panicked = false ∧ (parse cs).fuelOut = false ∧
      doc.kind = .document ∧ doc.start = 0 ∧ doc.stop = cs.length ∧
      allInnerWf doc = true ∧ doc.children.length ≤ 1 ∧
      ((doc.children = [] ∧
          Δ = [⟨"unexpected EOF".data, cs.length, cs.length⟩]) ∨
        ∃ c, doc.children = [c] ∧ c.kind = .innerNode) ∧
      (Δ = [] → strongDoc doc = true) := by
  have hin₀ : (lexInit cs).input = cs := rfl
  have hrest₀ : (lexInit cs).rest = cs := rfl
  simp only [parse, parseF, parse_document]
  rw [peek_lexInit_start cs]
  obtain ⟨s', q1, q2, q3, q4⟩ := parse_document_skip_spec (2 * cs.length + 4)
    (lexInit cs) (TreeBuilder.new.open_ .document 0)
    (by rw [hrest₀]; omega)
  rw [hrest₀] at q3
  rw [hin₀] at q2
  rcases q4 with ⟨hr, hlangle⟩ | ⟨hr, heof⟩
  · -- InnerNode path
    rw [hr]
    rw [if_neg (by simp)]
    simp only []
    obtain ⟨innerT, Δ, ⟨e1, e2, e3, e4, e5, e6⟩, elt, ekind, ebk, ewf, est⟩ :=
      (parse_master (2 * cs.length + 4)).2 s'
        (TreeBuilder.new.open_ .document 0) hlangle (by omega)
    obtain ⟨s₃, hdrain, hdin, hdeof⟩ :=
      parse_document_drain_spec (2 * cs.length + 4)
        (parse_inner_node (2 * cs.length + 4) s'
          (TreeBuilder.new.open_ .document 0)).1 (by omega)
    rw [hdrain]
    simp only [Bool.false_eq_true, if_false]
    have hs₃in : s₃.input = cs := by rw [hdin, e1, q2]
    have hpk : (peekT s₃).span.start = cs.length := by
      rw [peek_eof_token s₃ hdeof, hs₃in]
      rfl
    rw [hpk]
    have hcp := complete_push (parse_inner_node (2 * cs.length + 4) s'
        (TreeBuilder.new.open_ .document 0)).2 [innerT] .document 0
      cs.length []
      (by rw [e3]; simp [TreeBuilder.open_, TreeBuilder.new])
    rw [hcp]
    refine ⟨.mk .document 0 cs.length [innerT], Δ, rfl, ?_, ?_, ?_,
      rfl, rfl, rfl, ?_, by simp [UTree.children], ?_, ?_⟩
    · show (parse_inner_node _ _ _).2.errors = Δ
      rw [e4]
      simp [TreeBuilder.open_, TreeBuilder.new]
    · show (parse_inner_node _ _ _).2.panicked = false
      rw [e5]
      simp [TreeBuilder.open_, TreeBuilder.new]
    · show (parse_inner_node _ _ _).2.fuelOut = false
      rw [e6]
      simp [TreeBuilder.open_, TreeBuilder.new]
    · simp [allInnerWf, allInnerWfList, ewf]
    · exact Or.inr ⟨innerT, rfl, ekind⟩
    · intro hΔ
      have hsb := est hΔ
      rw [show strongBody innerT = strongInner innerT by
        simp [strongBody, ekind]] at hsb
      simp [strongDoc, hsb]
  · -- EOF-before-`<` path
    rw [hr]
    rw [if_pos rfl]
    simp only []
    have hpk : (peekT s').span.start = cs.length := by
      rw [peek_eof_token s' heof, q2]
      rfl
    have hpk₂ : (peekT s').span.stop = cs.length := by
      rw [peek_eof_token s' heof, q2]
      rfl
    rw [hpk, hpk₂]
    refine ⟨.mk .document 0 cs.length [], [⟨"unexpected EOF".data,
      cs.length, cs.length⟩], ?_, ?_, ?_, ?_, rfl, rfl, rfl,
      by simp [allInnerWf, allInnerWfList], by simp [UTree.children],
      Or.inl ⟨rfl, rfl⟩, fun hΔ => by cases hΔ⟩
    all_goals simp [TreeBuilder.new, TreeBuilder.open_, TreeBuilder.add_error,
      TreeBuilder.complete, completeAux]

/-! ## Converter totality on strongly-shaped trees -/

theorem sem_parse_attr_total {t : UTree} (h : strongAttr t = true) :
    (sem_parse_attr t).isSome = true := by
  unfold strongAttr at h
  split at h
  · rename_i st sp a v
    rw [Bool.and_eq_true] at h
    obtain ⟨ha, hv⟩ := h
    have ha' : ∃ n, a.kind = .attrName n := by
      revert ha
      split
      · rename_i n hn
        exact fun _ => ⟨n, hn⟩
      · intro ha
        cases ha
    have hv' : ∃ vv, v.kind = .attrVal vv := by
      revert hv
      split
      · rename_i vv hvv
        exact fun _ => ⟨vv, hvv⟩
      · intro hv
        cases hv
    obtain ⟨n, hn⟩ := ha'
    obtain ⟨vv, hvv⟩ := hv'
    simp [sem_parse_attr, hn, hvv]
  · cases h

theorem sem_parse_attr_list_total {l : List UTree}
    (h : strongAttrList l = true) :
    (sem_parse_attr_list l).isSome = true := by
  induction l with
  | nil => rfl
  | cons t ts ih =>
    simp only [strongAttrList, Bool.and_eq_true] at h
    have h1 := sem_parse_attr_total h.1
    have h2 := ih h.2
    simp only [sem_parse_attr_list]
    rcases Option.isSome_iff_exists.mp h1 with ⟨a, ha⟩
    rcases Option.isSome_iff_exists.mp h2 with ⟨as_, has⟩
    rw [ha, has]
    rfl

theorem sem_parse_open_tag_total {t : UTree} (h : strongOpen t = true) :
    (sem_parse_open_tag t).isSome = true := by
  unfold strongOpen at h
  split at h
  · rename_i st sp tn asn
    rw [Bool.and_eq_true] at h
    obtain ⟨htn, hasn⟩ := h
    have htn' : ∃ n, tn.kind = .tagName n := by
      revert htn
      split
      · rename_i n hn
        exact fun _ => ⟨n, hn⟩
      · intro htn
        cases htn
    have hasn' : ∃ ast asp acs, asn = .mk .attrs ast asp acs ∧
        strongAttrList acs = true := by
      revert hasn
      split
      · rename_i ast asp acs
        exact fun hacs => ⟨ast, asp, acs, rfl, hacs⟩
      · intro hasn
        cases hasn
    obtain ⟨n, hn⟩ := htn'
    obtain ⟨ast, asp, acs, hasn₂, hacs⟩ := hasn'
    subst hasn₂
    have hattrs := sem_parse_attr_list_total hacs
    rcases Option.isSome_iff_exists.mp hattrs with ⟨as_, has⟩
    simp [sem_parse_open_tag, sem_parse_attrs, hn, has]
  · cases h

theorem strongRest_decomp {l : List UTree} (h : strongRest l = true) :
    ∃ mid c, l = mid ++ [c] ∧ c.kind = .closeTag ∧
      ∀ x ∈ mid, strongBody x = true := by
  induction l with
  | nil => rw [show strongRest [] = false by simp [strongRest]] at h; cases h
  | cons t ts ih =>
    cases ts with
    | nil =>
      rw [show strongRest [t] = decide (t.kind = .closeTag) by
        simp [strongRest]] at h
      exact ⟨[], t, rfl, of_decide_eq_true h, by simp⟩
    | cons u us =>
      rw [show strongRest (t :: u :: us) =
          (strongBody t && strongRest (u :: us)) by simp [strongRest]] at h
      rw [Bool.and_eq_true] at h
      obtain ⟨mid, c, hl, hc, hmid⟩ := ih h.2
      refine ⟨t :: mid, c, by rw [List.cons_append, ← hl], hc, ?_⟩
      intro x hx
      rcases List.mem_cons.mp hx with hx | hx
      · subst hx; exact h.1
      · exact hmid x hx

theorem sem_parse_node_list_total {l : List UTree}
    (h : ∀ x ∈ l, (sem_parse_node x).isSome = true) :
    (sem_parse_node_list l).isSome = true := by
  induction l with
  | nil => rw [show sem_parse_node_list [] = some [] by
      rw [sem_parse_node_list]]; rfl
  | cons t ts ih =>
    have h1 := h t (by simp)
    have h2 := ih fun x hx => h x (by simp [hx])
    rcases Option.isSome_iff_exists.mp h1 with ⟨a, ha⟩
    rcases Option.isSome_iff_exists.mp h2 with ⟨as_, has⟩
    rw [show sem_parse_node_list (t :: ts) =
      (match sem_parse_node t, sem_parse_node_list ts with
        | some x, some xs => some (x :: xs)
        | _, _ => none) by rw [sem_parse_node_list]]
    rw [ha, has]
    rfl

theorem sem_parse_node_total (n : Nat) :
    ∀ t : UTree, sizeOf t ≤ n → strongBody t = true →
      (sem_parse_node t).isSome = true := by
  induction n using Nat.strong_induction_on with
  | _ n ih =>
    intro t hsz hst
    obtain ⟨k, st, sp, children⟩ := t
    unfold strongBody at hst
    revert hst
    split
    case h_1 content heq =>
      intro _
      simp only [UTree.kind] at heq
      subst heq
      rw [show sem_parse_node (.mk (.textNode content) st sp children) =
        some (.text content) by rw [sem_parse_node]]
      rfl
    case h_2 heq =>
      intro hst
      simp only [UTree.kind] at heq
      subst heq
      rw [show sem_parse_node (.mk .innerNode st sp children) =
        sem_parse_inner (.mk .innerNode st sp children) by
          rw [sem_parse_node]]
      unfold strongInner at hst
      revert hst
      split
      case h_1 st' sp' c₀ rest heq₂ =>
        intro hst
        rw [Bool.and_eq_true] at hst
        obtain ⟨hso, hsr⟩ := hst
        obtain ⟨mid, c, hrest, hc, hmid⟩ := strongRest_decomp hsr
        injection heq₂ with hk₂ hst₂ hsp₂ hch₂
        subst hst₂
        subst hsp₂
        subst hch₂
        have hot := sem_parse_open_tag_total hso
        rcases Option.isSome_iff_exists.mp hot with ⟨ot, hot₂⟩
        have hmid₂ : (sem_parse_node_list mid).isSome = true := by
          apply sem_parse_node_list_total
          intro x hx
          apply ih (sizeOf x) ?_ x (Nat.le_refl _) (hmid x hx)
          subst hrest
          have hx₂ : x ∈ c₀ :: (mid ++ [c]) := by simp [hx]
          have := List.sizeOf_lt_of_mem hx₂
          simp only [UTree.mk.sizeOf_spec] at hsz
          omega
        rcases Option.isSome_iff_exists.mp hmid₂ with ⟨bs, hbs⟩
        subst hrest
        simp [sem_parse_inner, hot₂, List.getLast?_concat,
          List.dropLast_concat, hc, hbs]
      case h_2 hx =>
        intro hst
        cases hst
    case h_3 hx1 hx2 =>
      intro hst
      cases hst

/-- On a strongly-shaped CST, the semantic tree converter reaches none of its
panic branches. -/
theorem tree_from_total {t : UTree} (h : strongDoc t = true) :
    (tree_from t).isSome = true := by
  unfold strongDoc at h
  revert h
  split
  case h_1 st sp c =>
    intro h
    have hkc : c.kind = .innerNode := by
      unfold strongInner at h
      revert h
      split
      · intro _
        rfl
      · intro h
        cases h
    have hb : strongBody c = true := by
      rw [show strongBody c = strongInner c by simp [strongBody, hkc]]
      exact h
    have hn := sem_parse_node_total (sizeOf c) c (Nat.le_refl _) hb
    obtain ⟨ck, cst, csp, cch⟩ := c
    simp only [UTree.kind] at hkc
    subst hkc
    rw [show sem_parse_node (.mk .innerNode cst csp cch) =
      sem_parse_inner (.mk .innerNode cst csp cch) by
        rw [sem_parse_node]] at hn
    simp [tree_from, UTree.kind, sem_parse_doc, hn]
  case h_2 hx =>
    intro h
    cases h


/-! ## Claim theorems -/

/-- Claim C3: for every input, `parse` terminates and never panics: `take`
succeeds (so no `TreeBuilder::take` panic arm is hit), the panic and
fuel-exhaustion flags are clear, and the returned node is a Document whose
span is exactly `[0, input length]`. -/
theorem c3_parse_total_document_span (cs : List Char) :
    ∃ r, (parse cs).take = some r ∧
      (parse cs).panicked = false ∧ (parse cs).fuelOut = false ∧
      r.result.kind = .document ∧ r.result.start = 0 ∧
      r.result.stop = cs.length := by
  obtain ⟨doc, Δ, h1, h2, h3, h4, h5, h6, h7, h8, h9, h10, h11⟩ := parse_full cs
  refine ⟨⟨doc, (parse cs).errors⟩, ?_, h3, h4, h5, h6, h7⟩
  simp only [TreeBuilder.take]
  rw [h3, h4, h1]
  simp

/-- Claim C4, counterexample: on the empty input the Document node returned
by `parse` has zero children, not exactly one, so the Document node does not
always have exactly one child. -/
theorem c4_counterexample :
    ((parse ([] : List Char)).take.map (fun r => r.result.children.length)) =
        some 0 ∧
    ((parse ([] : List Char)).take.map (fun r => r.result.children.length)) ≠
        some 1 := by
  constructor
  · rfl
  · intro h
    rw [show ((parse ([] : List Char)).take.map
        (fun r => r.result.children.length)) = some 0 from rfl] at h
    cases h

/-- Claim C4 (amended): for every input the CST returned by `parse`
satisfies the InnerNode shape invariants (children in order are one OpenTag,
then body nodes, then at most one CloseTag — `allInnerWf`), and the Document
node has AT MOST one child: exactly one InnerNode child, except that when
lexing reaches Eof before any `<` the Document has zero children and an
"unexpected EOF" error is reported. -/
theorem c4_amended_cst_shape (cs : List Char) :
    ∃ r, (parse cs).take = some r ∧
      r.result.kind = .document ∧
      allInnerWf r.result = true ∧
      r.result.children.length ≤ 1 ∧
      ((r.result.children = [] ∧
          ⟨"unexpected EOF".data, cs.length, cs.length⟩ ∈ r.errors) ∨
        ∃ c, r.result.children = [c] ∧ c.kind = .innerNode) := by
  obtain ⟨doc, Δ, h1, h2, h3, h4, h5, h6, h7, h8, h9, h10, h11⟩ := parse_full cs
  refine ⟨⟨doc, (parse cs).errors⟩, ?_, h5, h8, h9, ?_⟩
  · simp only [TreeBuilder.take]
    rw [h3, h4, h1]
    simp
  · rcases h10 with ⟨hc, hΔ⟩ | h10
    · refine Or.inl ⟨hc, ?_⟩
      show _ ∈ (parse cs).errors
      rw [h2, hΔ]
      simp
    · exact Or.inr h10

/-- Claim C5, counterexample: on the empty input `parse` succeeds but the
semantic converter hits a panic branch (`tree_from` returns `none`: the
Document node has no InnerNode child to convert), so the converter's fatal
shape failure IS reachable from an input. -/
theorem c5_counterexample :
    ∃ r, (parse ([] : List Char)).take = some r ∧
      tree_from r.result = none := by
  refine ⟨⟨.mk .document 0 0 [], [⟨"unexpected EOF".data, 0, 0⟩]⟩, rfl, rfl⟩

/-- Claim C5 (amended): the converter's fatal branches are unreachable for
every input whose parse reports NO syntax errors: if the error list is
empty, converting the CST with `tree_from` succeeds.  (After error recovery
the CST can be missing the Document's InnerNode child and conversion does
panic — see the counterexample.) -/
theorem c5_amended_converter_total (cs : List Char)
    (h : (parse cs).errors = []) :
    (((parse cs).take).bind (fun r => tree_from r.result)).isSome = true := by
  obtain ⟨doc, Δ, h1, h2, h3, h4, h5, h6, h7, h8, h9, h10, h11⟩ := parse_full cs
  have hΔ : Δ = [] := by rw [← h2]; exact h
  have htf := tree_from_total (h11 hΔ)
  have htake : (parse cs).take = some ⟨doc, (parse cs).errors⟩ := by
    simp only [TreeBuilder.take]
    rw [h3, h4, h1]
    simp
  rw [htake]
  simpa using htf

/-- Witness for the amended C5 theorem at the concrete error-free input
`<A>text</A>`. -/
theorem c5_amended_converter_total_witness :
    (((parse "<A>text</A>".data).take).bind
      (fun r => tree_from r.result)).isSome = true :=
  c5_amended_converter_total "<A>text</A>".data rfl

/-- Claim C9: the spec says a bare carriage return is counted as a line
break, so the character after a bare `\r` should be on the next line; in
`pos_to_line` the wildcard arm inside the `'\r'` match does not increment
the line counter, so position 2 of "a\rb" is reported on line 1, not 2.
The adjacent arms show the intent (CRLF adds one, `\r\r` adds two), and the
model reproduces the code's own unit-test values. -/
theorem c9_pos_to_line_bare_cr_bug :
    pos_to_line 2 ('a' :: '\r' :: 'b' :: []) = 1 ∧
    pos_to_line 15 "first\nsecond\r\rthird".data = 4 ∧
    pos_to_line 3 "first\nsecond\r\nthird".data = 1 ∧
    pos_to_line 6 "first\nsecond\r\nthird".data = 2 ∧
    pos_to_line 15 "first\nsecond\r\nthird".data = 3 ∧
    pos_to_line 451 "first\nsecond\r\nthird".data = 3 :=
  ⟨rfl, rfl, rfl, rfl, rfl, rfl⟩

/-- Claim C8: `process` leaves Text nodes unchanged; on an element it first
processes each child in order (post-order); if the tag name has a registered
transform it invokes it on the attributes and the processed children and
recursively processes the replacement tree; if no transform is registered it
rebuilds the element with the same tag name and attributes over the
processed children. -/
theorem c8_process_postorder_transform :
    (∀ tf fuel s, process tf fuel (.text s) = some (.text s)) ∧
    (∀ tf fuel tag attrs children, tf tag = none →
      process tf fuel (.inner tag attrs children) =
        match process_list tf fuel children with
        | some cs => some (.inner tag attrs cs)
        | none => none) ∧
    (∀ tf fuel tag attrs children tr, tf tag = some tr →
      process tf (fuel + 1) (.inner tag attrs children) =
        match process_list tf (fuel + 1) children with
        | some cs => process tf fuel (tr attrs cs)
        | none => none) ∧
    (∀ tf fuel, process_list tf fuel ([] : List STree) = some []) ∧
    (∀ tf fuel t ts, process_list tf fuel (t :: ts) =
      match process tf fuel t, process_list tf fuel ts with
      | some x, some xs => some (x :: xs)
      | _, _ => none) := by
  refine ⟨?_, ?_, ?_, ?_, ?_⟩
  · intro tf fuel s
    unfold process
    rfl
  · intro tf fuel tag attrs children htf
    conv_lhs => unfold process
    cases hpl : process_list tf fuel children <;> simp [htf]
  · intro tf fuel tag attrs children tr htf
    conv_lhs => unfold process
    cases hpl : process_list tf (fuel + 1) children <;> simp [htf]
  · intro tf fuel
    unfold process_list
    rfl
  · intro tf fuel t ts
    conv_lhs => unfold process_list

/-- Witness for C8 at a concrete transform table: the tag `Other` has no
registered transform, `Title` has one (`titleTransform`), and both
element equations of the theorem are obtained by applying it there. -/
theorem c8_process_postorder_transform_witness :
    (process titleTable 1 (.inner "Other".data [] [STree.text "x".data]) =
      match process_list titleTable 1 [STree.text "x".data] with
      | some cs => some (.inner "Other".data [] cs)
      | none => none) ∧
    (process titleTable 1 (.inner "Title".data [] [STree.text "x".data]) =
      match process_list titleTable 1 [STree.text "x".data] with
      | some cs => process titleTable 0 (titleTransform [] cs)
      | none => none) :=
  ⟨c8_process_postorder_transform.2.1 titleTable 1 "Other".data []
      [STree.text "x".data] rfl,
   c8_process_postorder_transform.2.2.1 titleTable 0 "Title".data []
      [STree.text "x".data] titleTransform rfl⟩

theorem read_attr_val_clean (v : List Char) (br : Char) (tail : List Char)
    (hv : ∀ c ∈ v, c ≠ '\n' ∧ c ≠ '\r' ∧ c ≠ '"' ∧ c ≠ '\\')
    (hbr : br = '\n' ∨ br = '\r') :
    read_attr_val false (v ++ br :: tail) =
      (.unterminatedAttrVal, br :: tail) := by
  induction v with
  | nil =>
    simp only [List.nil_append, read_attr_val]
    rcases hbr with h | h <;> subst h <;> simp
  | cons c cs ih =>
    obtain ⟨h1, h2, h3, h4⟩ := hv c (List.mem_cons_self c cs)
    simp only [List.cons_append, read_attr_val]
    rw [if_neg (by simp [h1, h2]), if_neg (by simp [h4]),
      if_neg (by simp [h3])]
    exact ih (fun d hd => hv d (List.mem_cons_of_mem c hd))

/-- Claim C7: an attribute value whose opening quote is followed by clean
value text and then a literal newline or carriage return (before any closing
quote) lexes as an UnterminatedAttrVal token whose text is the partial value
(quote and break excluded); and on such a token the parser emits a
SyntaxError with message exactly "unterminated attribute value" while still
recording the Attr node with an AttrVal child holding the partial text. -/
theorem c7_unterminated_attr_value :
    (∀ (pre v tail : List Char) (br : Char) (n : Nat),
      (∀ c ∈ v, c ≠ '\n' ∧ c ≠ '\r' ∧ c ≠ '"' ∧ c ≠ '\\') →
      (br = '\n' ∨ br = '\r') →
      readNext ⟨pre ++ '"' :: (v ++ br :: tail), '"' :: (v ++ br :: tail),
          .inside n⟩ =
        (⟨.unterminatedAttrVal, v,
          ⟨pre.length + 1, pre.length + 1 + v.length⟩⟩,
         ⟨pre ++ '"' :: (v ++ br :: tail), br :: tail, .inside n⟩)) ∧
    (∀ (s : LexS) (b : TreeBuilder),
      (peekT (popT s).2).kind = .equals →
      (peekT (popT (popT s).2).2).kind = .unterminatedAttrVal →
      parse_attr s b =
        ((popT (popT (popT s).2).2).2,
         ⟨.complete (.mk .attr (peekT s).span.start
              (peekT (popT (popT s).2).2).span.stop
              [.mk (.attrName (peekT s).text) (peekT s).span.start
                (peekT s).span.stop [],
               .mk (.attrVal (peekT (popT (popT s).2).2).text)
                (peekT (popT (popT s).2).2).span.start
                (peekT (popT (popT s).2).2).span.stop []]) :: b.wip,
          b.errors ++ [⟨"unterminated attribute value".data,
            (peekT (popT (popT s).2).2).span.start,
            (peekT (popT (popT s).2).2).span.stop⟩],
          b.panicked, b.fuelOut⟩)) := by
  constructor
  · intro pre v tail br n hv hbr
    have hrav := read_attr_val_clean v br tail hv hbr
    have hws : (skip_while is_whitespace
        ('"' :: (v ++ br :: tail))).2 = '"' :: (v ++ br :: tail) := by
      simp [skip_while, is_whitespace]
    have hstep : read_inside_step n '"' (v ++ br :: tail) =
        some (.unterminatedAttrVal, br :: tail, .inside n) := by
      unfold read_inside_step
      rw [if_neg (by decide), if_neg (by decide), if_neg (by decide),
        if_neg (by decide), if_pos rfl, hrav]
    show readNextF 3 _ = _
    simp only [readNextF, hws, hstep]
    have hstart : (pre ++ '"' :: (v ++ br :: tail)).length -
        ('"' :: (v ++ br :: tail)).length = pre.length := by
      simp [List.length_append]
    have hstop : (pre ++ '"' :: (v ++ br :: tail)).length -
        (br :: tail).length = pre.length + 1 + v.length := by
      simp [List.length_append]
      omega
    rw [if_neg (by decide), if_pos trivial, hstart, hstop]
    have hd : (pre ++ '"' :: (v ++ br :: tail)).drop (pre.length + 1) =
        v ++ br :: tail := by
      rw [show pre ++ '"' :: (v ++ br :: tail) =
          (pre ++ ['"']) ++ (v ++ br :: tail) by simp,
        show pre.length + 1 = (pre ++ ['"']).length by simp]
      exact List.drop_left _ _
    have harith : pre.length + 1 + v.length - (pre.length + 1) =
        v.length := by
      omega
    simp [Token.from_input, hd, harith, List.take_left]
  · intro s b h2 h3
    obtain ⟨wipb, errsb, pb, fb⟩ := b
    simp only [parse_attr]
    split
    case h_1 heq =>
      simp only [parse_attr_rest]
      split
      case h_1 heq2 =>
        rw [h3] at heq2
        cases heq2
      case h_2 heq2 =>
        rw [if_pos heq2]
        simp only [Prod.mk.injEq]
        refine ⟨trivial, ?_⟩
        simp [TreeBuilder.open_, TreeBuilder.complete, completeAux,
          TreeBuilder.add_error, popT_fst]
      case h_3 hne1 hne2 =>
        exact absurd h3 hne2
    case h_2 heq =>
      rw [h2] at heq
      cases heq
    case h_3 heq =>
      rw [h2] at heq
      cases heq
    case h_4 hne1 hne2 hne3 =>
      exact absurd h2 hne1

/-- Witness for C7 at the concrete state fragments arising from the input
`x="1` followed by a newline: the value token is an UnterminatedAttrVal with
text `1`, and the parser records the attribute `x` with partial value `1`
next to the "unterminated attribute value" error. -/
theorem c7_unterminated_attr_value_witness :
    readNext ⟨'"' :: '1' :: '\n' :: [], '"' :: '1' :: '\n' :: [],
        .inside 0⟩ =
      (⟨.unterminatedAttrVal, ['1'], ⟨1, 2⟩⟩,
       ⟨'"' :: '1' :: '\n' :: [], '\n' :: [], .inside 0⟩) ∧
    parse_attr ⟨"x=\"1\n".data, "x=\"1\n".data, .inside 0⟩ TreeBuilder.new =
      (⟨"x=\"1\n".data, '\n' :: [], .inside 0⟩,
       ⟨[.complete (.mk .attr 0 4
            [.mk (.attrName ['x']) 0 1 [], .mk (.attrVal ['1']) 3 4 []])],
        [⟨"unterminated attribute value".data, 3, 4⟩], false, false⟩) :=
  ⟨c7_unterminated_attr_value.1 [] ['1'] [] '\n' 0 (by decide)
      (Or.inl rfl),
   c7_unterminated_attr_value.2 ⟨"x=\"1\n".data, "x=\"1\n".data, .inside 0⟩
      TreeBuilder.new rfl rfl⟩

/-- Claim C10 (implicit): with a fence of depth `n ≥ 1` open, a `</`
followed by fewer than `n` characters all of which are `#` (the rest of the
input) also stops the text scan — the `take n` lookahead on the truncated
tail vacuously succeeds — and the lexer then emits an LAngleSlash token that
consumes the `/` and every remaining hash, so a full n-hash close sequence
is not required at end of input. -/
theorem c10_truncated_close_fence :
    (∀ (n : Nat) (hs ts : List Char), 0 < n →
      (∀ c ∈ hs, c = '#') → hs.length < n → (∀ c ∈ ts, c ≠ '<') →
      read_outside_loop n (ts ++ '<' :: '/' :: hs) = '<' :: '/' :: hs) ∧
    (∀ (n : Nat) (hs pre : List Char), 0 < n →
      (∀ c ∈ hs, c = '#') → hs.length < n →
      readNext ⟨pre ++ '<' :: '/' :: hs, '<' :: '/' :: hs, .outside n⟩ =
        (⟨.lAngleSlash, '<' :: '/' :: hs,
          ⟨pre.length, (pre ++ '<' :: '/' :: hs).length⟩⟩,
         ⟨pre ++ '<' :: '/' :: hs, [], .inside 0⟩)) := by
  have hloop : ∀ (n : Nat) (hs ts : List Char), 0 < n →
      (∀ c ∈ hs, c = '#') → hs.length < n → (∀ c ∈ ts, c ≠ '<') →
      read_outside_loop n (ts ++ '<' :: '/' :: hs) = '<' :: '/' :: hs := by
    intro n hs ts hn h1 h2 h3
    induction ts with
    | nil =>
      simp [read_outside_loop, List.take_of_length_le (le_of_lt h2), hn.ne',
        List.all_eq_true, h1]
      intro x hx hne
      exact absurd (h1 x hx) hne
    | cons t ts ih =>
      simp only [List.cons_append, read_outside_loop]
      rw [if_neg (h3 t (List.mem_cons_self t ts))]
      exact ih (fun d hd => h3 d (List.mem_cons_of_mem t hd))
  refine ⟨hloop, ?_⟩
  intro n hs pre hn h1 h2
  have h0 := hloop n hs [] hn h1 h2 (by simp)
  rw [List.nil_append] at h0
  have hdrop : hs.drop n = [] := List.drop_eq_nil_of_le (le_of_lt h2)
  have hstep : read_inside_step n '<' ('/' :: hs) =
      some (.lAngleSlash, [], .inside 0) := by
    unfold read_inside_step
    rw [if_pos rfl, if_pos (by simp)]
    simp [hdrop]
  have hws : (skip_while is_whitespace ('<' :: '/' :: hs)).2 =
      '<' :: '/' :: hs := by
    simp [skip_while, is_whitespace]
  show readNextF 3 _ = _
  simp only [readNextF, h0, hws, hstep]
  rw [if_neg (by simp [currentPos])]
  simp only [currentPos, List.length_nil, Nat.sub_zero]
  have hstart : (pre ++ '<' :: '/' :: hs).length -
      ('<' :: '/' :: hs).length = pre.length := by
    simp [List.length_append]
  have hdl : (pre ++ '<' :: '/' :: hs).drop pre.length = '<' :: '/' :: hs :=
    List.drop_left _ _
  have hlen2 : (pre ++ '<' :: '/' :: hs).length - pre.length =
      ('<' :: '/' :: hs).length := by
    simp [List.length_append]
  simp [Token.from_input, hstart, hdl, hlen2]

/-- Witness for C10 at fence depth 1 with zero trailing hashes: the input
`a</` ends in a truncated close fence; the text scan stops after `a` and the
lexer then consumes `</` as an LAngleSlash token, leaving no input. -/
theorem c10_truncated_close_fence_witness :
    read_outside_loop 1 ('a' :: '<' :: '/' :: []) = '<' :: '/' :: [] ∧
    readNext ⟨'a' :: '<' :: '/' :: [], '<' :: '/' :: [], .outside 1⟩ =
      (⟨.lAngleSlash, '<' :: '/' :: [], ⟨1, 3⟩⟩,
       ⟨'a' :: '<' :: '/' :: [], [], .inside 0⟩) :=
  ⟨c10_truncated_close_fence.1 1 [] ['a'] (by decide) (by decide)
      (by decide) (by decide),
   c10_truncated_close_fence.2 1 [] ['a'] (by decide) (by decide)
      (by decide)⟩

/-- Claim C1, counterexample: parsing `<Mixed><Up></Mixed></Up>` does NOT
produce exactly one "closing tag must match opening" syntax error — both the
inner node (closed by `</Mixed>`) and the outer node (closed by `</Up>`)
report a mismatch, so there are two. -/
theorem c1_counterexample :
    ¬((parse "<Mixed><Up></Mixed></Up>".data).errors.countP
        (fun e => e.message.take 30 ==
          "closing tag must match opening".data) = 1) := by
  intro h
  rw [show (parse "<Mixed><Up></Mixed></Up>".data).errors.countP
        (fun e => e.message.take 30 ==
          "closing tag must match opening".data) = 2 from rfl] at h
  exact absurd h (by omega)

/-- Claim C1 (amended): parsing `<Mixed><Up></Mixed></Up>` produces exactly
TWO "closing tag must match opening" syntax errors (and no others), and the
resulting semantic tree is an element `Mixed` containing exactly one child
element `Up` with no children: the nearest close tag always closes the
current InnerNode, regardless of its name. -/
theorem c1_two_mismatch_errors :
    (parse "<Mixed><Up></Mixed></Up>".data).errors.countP
        (fun e => e.message.take 30 ==
          "closing tag must match opening".data) = 2 ∧
    (parse "<Mixed><Up></Mixed></Up>".data).errors.length = 2 ∧
    ((parse "<Mixed><Up></Mixed></Up>".data).take.map
        ParseResult.result).bind tree_from =
      some (.inner "Mixed".data [] [.inner "Up".data [] []]) := by
  refine ⟨rfl, rfl, ?_⟩
  have th1 : sem_parse_inner (UTree.mk .innerNode 7 19
      [.mk .openTag 7 11 [.mk (.tagName "Up".data) 8 10 [],
        .mk .attrs 10 10 []],
       .mk .closeTag 11 19 [.mk (.tagName "Mixed".data) 13 18 []]]) =
      some (.inner "Up".data [] []) := by
    simp [sem_parse_inner, sem_parse_node_list, sem_parse_open_tag,
      sem_parse_attrs, sem_parse_attr_list, UTree.kind, UTree.children]
  have th2 : sem_parse_node (UTree.mk .innerNode 7 19
      [.mk .openTag 7 11 [.mk (.tagName "Up".data) 8 10 [],
        .mk .attrs 10 10 []],
       .mk .closeTag 11 19 [.mk (.tagName "Mixed".data) 13 18 []]]) =
      some (.inner "Up".data [] []) := by
    rw [sem_parse_node]
    exact th1
  have th3 : sem_parse_node_list [UTree.mk .innerNode 7 19
      [.mk .openTag 7 11 [.mk (.tagName "Up".data) 8 10 [],
        .mk .attrs 10 10 []],
       .mk .closeTag 11 19 [.mk (.tagName "Mixed".data) 13 18 []]]] =
      some [.inner "Up".data [] []] := by
    rw [sem_parse_node_list, th2, sem_parse_node_list]
  have th0 : sem_parse_open_tag (UTree.mk .openTag 0 7
      [.mk (.tagName "Mixed".data) 1 6 [], .mk .attrs 6 6 []]) =
      some ⟨"Mixed".data, []⟩ := by
    simp [sem_parse_open_tag, sem_parse_attrs, sem_parse_attr_list,
      UTree.kind, UTree.children]
  have th4 : sem_parse_inner (UTree.mk .innerNode 0 24
      [.mk .openTag 0 7 [.mk (.tagName "Mixed".data) 1 6 [],
        .mk .attrs 6 6 []],
       .mk .innerNode 7 19 [.mk .openTag 7 11
          [.mk (.tagName "Up".data) 8 10 [], .mk .attrs 10 10 []],
        .mk .closeTag 11 19 [.mk (.tagName "Mixed".data) 13 18 []]],
       .mk .closeTag 19 24 [.mk (.tagName "Up".data) 21 23 []]]) =
      some (.inner "Mixed".data [] [.inner "Up".data [] []]) := by
    rw [sem_parse_inner, th0]
    simp only [
      show List.getLast? [UTree.mk .innerNode 7 19 [.mk .openTag 7 11
          [.mk (.tagName "Up".data) 8 10 [], .mk .attrs 10 10 []],
          .mk .closeTag 11 19 [.mk (.tagName "Mixed".data) 13 18 []]],
        UTree.mk .closeTag 19 24 [.mk (.tagName "Up".data) 21 23 []]] =
        some (.mk .closeTag 19 24 [.mk (.tagName "Up".data) 21 23 []])
        from rfl,
      show List.dropLast [UTree.mk .innerNode 7 19 [.mk .openTag 7 11
          [.mk (.tagName "Up".data) 8 10 [], .mk .attrs 10 10 []],
          .mk .closeTag 11 19 [.mk (.tagName "Mixed".data) 13 18 []]],
        UTree.mk .closeTag 19 24 [.mk (.tagName "Up".data) 21 23 []]] =
        [UTree.mk .innerNode 7 19 [.mk .openTag 7 11
          [.mk (.tagName "Up".data) 8 10 [], .mk .attrs 10 10 []],
          .mk .closeTag 11 19 [.mk (.tagName "Mixed".data) 13 18 []]]]
        from rfl,
      UTree.kind]
    rw [th3]
    simp
  have tA : (parse "<Mixed><Up></Mixed></Up>".data).take.map
      ParseResult.result =
    some (UTree.mk .document 0 24 [.mk .innerNode 0 24
      [.mk .openTag 0 7 [.mk (.tagName "Mixed".data) 1 6 [],
        .mk .attrs 6 6 []],
       .mk .innerNode 7 19 [.mk .openTag 7 11
          [.mk (.tagName "Up".data) 8 10 [], .mk .attrs 10 10 []],
        .mk .closeTag 11 19 [.mk (.tagName "Mixed".data) 13 18 []]],
       .mk .closeTag 19 24 [.mk (.tagName "Up".data) 21 23 []]]]) := rfl
  rw [tA]
  rw [show Option.bind (some (UTree.mk .document 0 24 [.mk .innerNode 0 24
      [.mk .openTag 0 7 [.mk (.tagName "Mixed".data) 1 6 [],
        .mk .attrs 6 6 []],
       .mk .innerNode 7 19 [.mk .openTag 7 11
          [.mk (.tagName "Up".data) 8 10 [], .mk .attrs 10 10 []],
        .mk .closeTag 11 19 [.mk (.tagName "Mixed".data) 13 18 []]],
       .mk .closeTag 19 24 [.mk (.tagName "Up".data) 21 23 []]]]))
      tree_from =
    tree_from (UTree.mk .document 0 24 [.mk .innerNode 0 24
      [.mk .openTag 0 7 [.mk (.tagName "Mixed".data) 1 6 [],
        .mk .attrs 6 6 []],
       .mk .innerNode 7 19 [.mk .openTag 7 11
          [.mk (.tagName "Up".data) 8 10 [], .mk .attrs 10 10 []],
        .mk .closeTag 11 19 [.mk (.tagName "Mixed".data) 13 18 []]],
       .mk .closeTag 19 24 [.mk (.tagName "Up".data) 21 23 []]]])
    from Option.some_bind _ _]
  simp only [tree_from, UTree.kind, sem_parse_doc]
  exact th4

/-- Claim C2: the fence-1 input `<C #>a < b </C> c</# C>` parses with zero
syntax errors, and the sole body content of element `C` is the text node
`a < b </C> c`: while the depth-1 fence is open the tokenizer ends the Text
token only at `</` followed by one `#`, and consumes the bare `</C>` (which
lacks the hash) as ordinary text. -/
theorem c2_fence_one_raw_text :
    (parse "<C #>a < b </C> c</# C>".data).errors = [] ∧
    ((parse "<C #>a < b </C> c</# C>".data).take.map
        ParseResult.result).bind tree_from =
      some (.inner "C".data [] [.text "a < b </C> c".data]) := by
  refine ⟨rfl, ?_⟩
  have th0 : sem_parse_open_tag (UTree.mk .openTag 0 5
      [.mk (.tagName "C".data) 1 2 [], .mk .attrs 3 3 []]) =
      some ⟨"C".data, []⟩ := by
    simp [sem_parse_open_tag, sem_parse_attrs, sem_parse_attr_list,
      UTree.kind, UTree.children]
  have th2 : sem_parse_node (UTree.mk (.textNode "a < b </C> c".data)
      5 17 []) = some (.text "a < b </C> c".data) := by
    rw [sem_parse_node]
  have th3 : sem_parse_node_list
      [UTree.mk (.textNode "a < b </C> c".data) 5 17 []] =
      some [.text "a < b </C> c".data] := by
    rw [sem_parse_node_list, th2, sem_parse_node_list]
  have th4 : sem_parse_inner (UTree.mk .innerNode 0 23
      [.mk .openTag 0 5 [.mk (.tagName "C".data) 1 2 [],
        .mk .attrs 3 3 []],
       .mk (.textNode "a < b </C> c".data) 5 17 [],
       .mk .closeTag 17 23 [.mk (.tagName "C".data) 21 22 []]]) =
      some (.inner "C".data [] [.text "a < b </C> c".data]) := by
    rw [sem_parse_inner, th0]
    simp only [
      show List.getLast? [UTree.mk (.textNode "a < b </C> c".data) 5 17 [],
        UTree.mk .closeTag 17 23 [.mk (.tagName "C".data) 21 22 []]] =
        some (.mk .closeTag 17 23 [.mk (.tagName "C".data) 21 22 []])
        from rfl,
      show List.dropLast [UTree.mk (.textNode "a < b </C> c".data) 5 17 [],
        UTree.mk .closeTag 17 23 [.mk (.tagName "C".data) 21 22 []]] =
        [UTree.mk (.textNode "a < b </C> c".data) 5 17 []] from rfl,
      UTree.kind]
    rw [th3]
    simp
  have tA : (parse "<C #>a < b </C> c</# C>".data).take.map
      ParseResult.result =
    some (UTree.mk .document 0 23 [.mk .innerNode 0 23
      [.mk .openTag 0 5 [.mk (.tagName "C".data) 1 2 [],
        .mk .attrs 3 3 []],
       .mk (.textNode "a < b </C> c".data) 5 17 [],
       .mk .closeTag 17 23 [.mk (.tagName "C".data) 21 22 []]]]) := rfl
  rw [tA]
  rw [show Option.bind (some (UTree.mk .document 0 23 [.mk .innerNode 0 23
      [.mk .openTag 0 5 [.mk (.tagName "C".data) 1 2 [],
        .mk .attrs 3 3 []],
       .mk (.textNode "a < b </C> c".data) 5 17 [],
       .mk .closeTag 17 23 [.mk (.tagName "C".data) 21 22 []]]]))
      tree_from =
    tree_from (UTree.mk .document 0 23 [.mk .innerNode 0 23
      [.mk .openTag 0 5 [.mk (.tagName "C".data) 1 2 [],
        .mk .attrs 3 3 []],
       .mk (.textNode "a < b </C> c".data) 5 17 [],
       .mk .closeTag 17 23 [.mk (.tagName "C".data) 21 22 []]]])
    from Option.some_bind _ _]
  simp only [tree_from, UTree.kind, sem_parse_doc]
  exact th4

/-- Claim C6: the open tag `<A x="1" x="2">` (in the well-formed document
`<A x="1" x="2"></A>`) yields an element whose attrs are exactly the
ordered list [("x","1"), ("x","2")]: duplicate names retained, source order
preserved, no deduplication. -/
theorem c6_duplicate_attrs_ordered :
    (parse "<A x=\"1\" x=\"2\"></A>".data).errors = [] ∧
    ((parse "<A x=\"1\" x=\"2\"></A>".data).take.map
        ParseResult.result).bind tree_from =
      some (.inner "A".data
        [("x".data, "1".data), ("x".data, "2".data)] []) := by
  refine ⟨rfl, ?_⟩
  have th0 : sem_parse_open_tag (UTree.mk .openTag 0 15
      [.mk (.tagName "A".data) 1 2 [],
       .mk .attrs 3 14
        [.mk .attr 3 7 [.mk (.attrName "x".data) 3 4 [],
          .mk (.attrVal "1".data) 6 7 []],
         .mk .attr 9 13 [.mk (.attrName "x".data) 9 10 [],
          .mk (.attrVal "2".data) 12 13 []]]]) =
      some ⟨"A".data, [("x".data, "1".data), ("x".data, "2".data)]⟩ := by
    simp [sem_parse_open_tag, sem_parse_attrs, sem_parse_attr_list,
      sem_parse_attr, UTree.kind, UTree.children]
  have th3 : sem_parse_node_list ([] : List UTree) = some [] := by
    rw [sem_parse_node_list]
  have th4 : sem_parse_inner (UTree.mk .innerNode 0 19
      [.mk .openTag 0 15 [.mk (.tagName "A".data) 1 2 [],
        .mk .attrs 3 14
          [.mk .attr 3 7 [.mk (.attrName "x".data) 3 4 [],
            .mk (.attrVal "1".data) 6 7 []],
           .mk .attr 9 13 [.mk (.attrName "x".data) 9 10 [],
            .mk (.attrVal "2".data) 12 13 []]]],
       .mk .closeTag 15 19 [.mk (.tagName "A".data) 17 18 []]]) =
      some (.inner "A".data
        [("x".data, "1".data), ("x".data, "2".data)] []) := by
    rw [sem_parse_inner, th0]
    simp only [
      show List.getLast?
        [UTree.mk .closeTag 15 19 [.mk (.tagName "A".data) 17 18 []]] =
        some (.mk .closeTag 15 19 [.mk (.tagName "A".data) 17 18 []])
        from rfl,
      show List.dropLast
        [UTree.mk .closeTag 15 19 [.mk (.tagName "A".data) 17 18 []]] =
        ([] : List UTree) from rfl,
      UTree.kind]
    rw [th3]
    simp
  have tA : (parse "<A x=\"1\" x=\"2\"></A>".data).take.map
      ParseResult.result =
    some (UTree.mk .document 0 19 [.mk .innerNode 0 19
      [.mk .openTag 0 15 [.mk (.tagName "A".data) 1 2 [],
        .mk .attrs 3 14
          [.mk .attr 3 7 [.mk (.attrName "x".data) 3 4 [],
            .mk (.attrVal "1".data) 6 7 []],
           .mk .attr 9 13 [.mk (.attrName "x".data) 9 10 [],
            .mk (.attrVal "2".data) 12 13 []]]],
       .mk .closeTag 15 19 [.mk (.tagName "A".data) 17 18 []]]]) := rfl
  rw [tA]
  rw [show Option.bind (some (UTree.mk .document 0 19 [.mk .innerNode 0 19
      [.mk .openTag 0 15 [.mk (.tagName "A".data) 1 2 [],
        .mk .attrs 3 14
          [.mk .attr 3 7 [.mk (.attrName "x".data) 3 4 [],
            .mk (.attrVal "1".data) 6 7 []],
           .mk .attr 9 13 [.mk (.attrName "x".data) 9 10 [],
            .mk (.attrVal "2".data) 12 13 []]]],
       .mk .closeTag 15 19 [.mk (.tagName "A".data) 17 18 []]]]))
      tree_from =
    tree_from (UTree.mk .document 0 19 [.mk .innerNode 0 19
      [.mk .openTag 0 15 [.mk (.tagName "A".data) 1 2 [],
        .mk .attrs 3 14
          [.mk .attr 3 7 [.mk (.attrName "x".data) 3 4 [],
            .mk (.attrVal "1".data) 6 7 []],
           .mk .attr 9 13 [.mk (.attrName "x".data) 9 10 [],
            .mk (.attrVal "2".data) 12 13 []]]],
       .mk .closeTag 15 19 [.mk (.tagName "A".data) 17 18 []]]])
    from Option.some_bind _ _]
  simp only [tree_from, UTree.kind, sem_parse_doc]
  exact th4
